import Mathlib

/-!
# Verification of the Fly.io one-click deployer backend

A shallow embedding, in Lean 4, of the deployment-orchestration backend
(`src/backend/controllers/deployController.js`, `src/backend/lib/installer.js`,
`src/backend/strategies/ai.js`, `src/backend/lib/config.js`,
`src/backend/lib/policy.js`).  Strings are modelled as Lean `String`
(operating on the underlying `List Char`), JavaScript regular-expression
passes are modelled as explicit character-list scanners that are faithful to
the concrete patterns appearing in the source, and external effects
(subprocesses, the filesystem, HTTP) are modelled by an explicit oracle
record so that every theorem quantifies over all possible outcomes of the
environment.

Conventions used throughout:
* machine text is `List Char` internally, wrapped in `String` at the API;
* `\s` is the full ECMAScript class (WhiteSpace ∪ LineTerminator, so it
  matches newlines), `.` excludes line terminators, and with the `m` flag
  `^` matches after any line terminator and `$` before one; the manifest
  rewrite passes are therefore whole-text scanners that track line starts,
  whose `\s*` runs may cross line breaks while `.*` stays within a line;
* fallible JavaScript code (`throw` / rejected promises) is `Except String`;
* fuelled recursion (structural, kernel-reducible) replaces unbounded
  scanning loops; the fuel used is always sufficient (one unit per consumed
  character).
-/

namespace FlyDeploy

/-! ## Character-list utilities -/

/-- Single quote character (written via its code point). -/
def sq : Char := Char.ofNat 39

/-- Double quote character. -/
def dq : Char := Char.ofNat 34

/-- Newline character. -/
def nl : Char := Char.ofNat 10

/-- Carriage return. -/
def cr : Char := Char.ofNat 13

/-- Horizontal tab. -/
def tab : Char := Char.ofNat 9

/-- ECMAScript LineTerminator: LF, CR, LINE SEPARATOR, PARAGRAPH
SEPARATOR.  These are the characters excluded by `.`, and the positions
after them are the `^` anchors (and before them the `$` anchors) under the
`m` flag. -/
def isLineTerm (c : Char) : Bool :=
  c = nl || c = cr || c.val = 0x2028 || c.val = 0x2029

/-- The ECMAScript `\s` class: WhiteSpace ∪ LineTerminator (space, tab,
vertical tab, form feed, NBSP, BOM, the Unicode `Zs` spaces, and the line
terminators).  In particular `\s` matches a newline. -/
def isJsWs (c : Char) : Bool :=
  c = ' ' || c = tab || c.val = 0x0B || c.val = 0x0C || isLineTerm c ||
  c.val = 0xA0 || c.val = 0x1680 ||
  (0x2000 ≤ c.val && c.val ≤ 0x200A) ||
  c.val = 0x202F || c.val = 0x205F || c.val = 0x3000 || c.val = 0xFEFF

/-- JavaScript `String.prototype.trim` whitespace: the same
WhiteSpace ∪ LineTerminator set as `\s`. -/
def isTrimWs (c : Char) : Bool := isJsWs c

/-- Strip a literal pattern from the front of a character list, returning
the remainder on success (the model of matching a literal at a position). -/
def stripPref : List Char → List Char → Option (List Char)
  | [], l => some l
  | _ :: _, [] => none
  | p :: ps, c :: cs => if p = c then stripPref ps cs else none

/-- Suffix strictly after the *last* occurrence of `q` before the current
line ends (the model of a greedy `.*q` match: `.` cannot cross a line
terminator, so the closing `q` is the last one on the line). -/
def afterLastOnLine (q : Char) : List Char → Option (List Char)
  | [] => none
  | c :: cs =>
    if isLineTerm c then none
    else
      match afterLastOnLine q cs with
      | some r => some r
      | none => if c = q then some cs else none

/-- `true` iff `pat` occurs as a contiguous infix of the list (the model of
JavaScript `String.prototype.includes`). -/
def containsSeq (pat : List Char) : List Char → Bool
  | [] => pat.isEmpty
  | c :: cs => pat.isPrefixOf (c :: cs) || containsSeq pat cs

/-- String-level `includes`. -/
def strIncludes (hay pat : String) : Bool := containsSeq pat.data hay.data

/-- String-level `startsWith` (the model of
JavaScript `String.prototype.startsWith`). -/
def strStartsWith (hay pre : String) : Bool := pre.data.isPrefixOf hay.data

/-- JavaScript `String.prototype.trim`. -/
def strTrim (s : String) : String :=
  String.mk (((s.data.dropWhile isTrimWs).reverse.dropWhile isTrimWs).reverse)

/-- Split a character list at line terminators (each terminator character
separates two lines, matching the `^` anchor positions of an `m`-flagged
regex).  Always returns at least one line; no line contains a
terminator. -/
def splitLines : List Char → List (List Char)
  | [] => [[]]
  | c :: cs =>
    if isLineTerm c then [] :: splitLines cs
    else
      match splitLines cs with
      | [] => [[c]]
      | l :: ls => (c :: l) :: ls

/-- The terminator-free head line of a text. -/
def takeLine (cs : List Char) : List Char :=
  cs.takeWhile (fun c => !isLineTerm c)

/-! ## Regex-pass scanners

The manifest rewrite passes of `deployController.js` (lines 93–99) and the
token redaction of `sanitizeLog` (lines 14–19) are JavaScript global regex
replaces.  A global replace collects the leftmost non-overlapping matches
of the original string left to right and splices in the replacements; it
is modelled as a left-to-right scanner: at each position a match is
attempted (for the `m`-anchored patterns only at line-start positions);
on success the match is replaced and scanning resumes after it, otherwise
one character is copied.  Fuel (one unit per consumed character, every
match consuming at least one) makes the recursion structural.

Each pattern's match attempt at one position is deterministic despite
regex backtracking: every `\s*` in the source patterns is followed by a
non-`\s` literal (`=`, a quote, `true`, `0`), so the greedy whitespace run
stops exactly at the first non-whitespace character, and `.*$` / `.*q`
runs to the end of the line (`$` then always holds; the closing `q` is
the last one on the line). -/

/-- Drop the (possibly newline-crossing) `\s*` run: the remainder starts
at the first non-`\s` character. -/
def dropWs : List Char → List Char
  | [] => []
  | c :: cs => if isJsWs c then dropWs cs else c :: cs

/-- Drop `.*` greedily within the current line: the remainder starts at
the first line terminator (kept), or is empty at text end. -/
def dropToEol : List Char → List Char
  | [] => []
  | c :: cs => if isLineTerm c then c :: cs else dropToEol cs

/-- Generic global-replace scanner with fuel (un-anchored patterns: a
match is attempted at every position). -/
def replaceScanF (m : List Char → Option (List Char)) (repl : List Char) :
    Nat → List Char → List Char
  | 0, cs => cs
  | _ + 1, [] => []
  | fuel + 1, c :: cs =>
    match m (c :: cs) with
    | some rest => repl ++ replaceScanF m repl fuel rest
    | none => c :: replaceScanF m repl fuel cs

/-- Global replace of a literal non-empty token (the model of
`.replace(new RegExp(token, 'g'), repl)` for a token without regex
metacharacters; the empty token cannot reach this code because empty
environment variables are falsy in JavaScript). -/
def replaceLit (tok repl : List Char) (cs : List Char) : List Char :=
  if tok.isEmpty then cs else replaceScanF (stripPref tok) repl cs.length cs

/-- One attempted match of `^key\s*=.*$` at the current position: the
literal key, a greedy whitespace run (which may cross line breaks), `=`,
then the rest of the line (`$` holds at the first terminator or at text
end).  Returns the remainder after the match — the terminator of the final
matched line is kept. -/
def tryLineKV (key : List Char) (cs : List Char) : Option (List Char) :=
  match stripPref key cs with
  | none => none
  | some r =>
    match dropWs r with
    | [] => none
    | c :: r2 => if c = '=' then some (dropToEol r2) else none

/-- One attempted match of `^checks\s*=\s*q.*q` at the current position:
the literal `checks`, whitespace (may cross line breaks), `=`, whitespace
(may cross line breaks), the opening quote, then greedily to the *last*
`q` on that line.  Returns the remainder directly after the closing
quote — the rest of that line is *not* consumed. -/
def tryChecks (q : Char) (cs : List Char) : Option (List Char) :=
  match stripPref "checks".data cs with
  | none => none
  | some r =>
    match dropWs r with
    | [] => none
    | c :: r2 =>
      if c = '=' then
        match dropWs r2 with
        | [] => none
        | d :: r3 => if d = q then afterLastOnLine q r3 else none
      else none

/-- One attempted match of `key\s*=\s*val` (un-anchored, whitespace may
cross line breaks) at the current position. -/
def tryFlag (key val : List Char) (cs : List Char) : Option (List Char) :=
  match stripPref key cs with
  | none => none
  | some r =>
    match dropWs r with
    | [] => none
    | c :: r2 => if c = '=' then stripPref val (dropWs r2) else none

/-- Scanner for one `gm`-anchored delete pass: a match is attempted only
at line-start positions (tracked in `atLS`: the start of the text, and
every position directly after a terminator character); a match is deleted
and scanning resumes after it (never at a line start: the remainder after
a match starts at a kept terminator, after a closing quote, or at text
end). -/
def passMF (try1 : List Char → Option (List Char)) :
    Nat → Bool → List Char → List Char
  | 0, _, cs => cs
  | _ + 1, _, [] => []
  | fuel + 1, atLS, c :: cs =>
    if atLS then
      match try1 (c :: cs) with
      | some rest => passMF try1 fuel false rest
      | none => c :: passMF try1 fuel (isLineTerm c) cs
    else c :: passMF try1 fuel (isLineTerm c) cs

/-- Scanner for one un-anchored `g` replace pass. -/
def passGF (try1 : List Char → Option (List Char)) (repl : List Char) :
    Nat → List Char → List Char
  | 0, cs => cs
  | _ + 1, [] => []
  | fuel + 1, c :: cs =>
    match try1 (c :: cs) with
    | some rest => repl ++ passGF try1 repl fuel rest
    | none => c :: passGF try1 repl fuel cs

/-- `app`. -/
def appKey : List Char := "app".data

/-- `primary_region`. -/
def prKey : List Char := "primary_region".data

/-- `checks`. -/
def ckKey : List Char := "checks".data

/-- `auto_stop_machines`. -/
def asmKey : List Char := "auto_stop_machines".data

/-- Replacement text for the `auto_stop_machines` rewrite. -/
def asmRepl : List Char := "auto_stop_machines = false".data

/-- `min_machines_running`. -/
def minKey : List Char := "min_machines_running".data

/-- Replacement text for the `min_machines_running` rewrite. -/
def minRepl : List Char := "min_machines_running = 1".data

/-- `.replace(/^app\s*=.*$/gm, '')`. -/
def passApp (cs : List Char) : List Char :=
  passMF (tryLineKV appKey) cs.length true cs

/-- `.replace(/^primary_region\s*=.*$/gm, '')`. -/
def passPrim (cs : List Char) : List Char :=
  passMF (tryLineKV prKey) cs.length true cs

/-- `.replace(/^checks\s*=\s*q.*q/gm, '')` for quote character `q`. -/
def passChecks (q : Char) (cs : List Char) : List Char :=
  passMF (tryChecks q) cs.length true cs

/-- `.replace(/auto_stop_machines\s*=\s*true/g, "auto_stop_machines = false")`. -/
def passAsm (cs : List Char) : List Char :=
  passGF (tryFlag asmKey "true".data) asmRepl cs.length cs

/-- `.replace(/min_machines_running\s*=\s*0/g, "min_machines_running = 1")`. -/
def passMin (cs : List Char) : List Char :=
  passGF (tryFlag minKey "0".data) minRepl cs.length cs

/-- The six rewrite passes of `deployController.js` lines 94–99 in source
order: delete `^app\s*=.*$` and `^primary_region\s*=.*$` matches, delete
double- then single-quoted `^checks\s*=\s*q.*q` matches, rewrite
`auto_stop_machines\s*=\s*true` to `… = false` and
`min_machines_running\s*=\s*0` to `… = 1`. -/
def rewriteBody (cs : List Char) : List Char :=
  passMin (passAsm (passChecks sq (passChecks dq (passPrim (passApp cs)))))

/-- A line that a TOML reader sees as an assignment to `key`: the key,
optional whitespace, `=`.  Lines produced by `splitLines` are
terminator-free, so the whitespace run never leaves the line.  This is
the property the claims count (an "application-identifier line" is a line
satisfying `lineAssign appKey`); it is *not* a model of the regex
passes. -/
def lineAssign (key : List Char) (l : List Char) : Bool :=
  match stripPref key l with
  | none => false
  | some r =>
    match dropWs r with
    | [] => false
    | c :: _ => c = '='

/-- The forced `app = '<name>'` header line (deployController line 93). -/
def appHeaderLine (appName : String) : List Char :=
  "app = ".data ++ sq :: appName.data ++ [sq]

/-- The forced `primary_region = '<region>'` header line. -/
def primHeaderLine (region : String) : List Char :=
  "primary_region = ".data ++ sq :: region.data ++ [sq]

/-- The forced header prepended by `deployController.js` line 93:
`app = '<name>'` and `primary_region = '<region>'`, each on its own line. -/
def tomlHeader (appName region : String) : List Char :=
  appHeaderLine appName ++ nl :: primHeaderLine region ++ [nl]

/-- Deploy-time manifest normalization (`deployController.js` lines 93–99):
prepend the forced `app`/`primary_region` header and apply the rewrite
passes to the prior text. -/
def normalizeToml (appName region t : String) : String :=
  String.mk (tomlHeader appName region ++ rewriteBody t.data)

/-- Number of application-identifier lines of a text: lines that a TOML
reader sees as assigning `app`. -/
def countAppLines (t : String) : Nat :=
  ((splitLines t.data).filter (lineAssign appKey)).length

/-! ## Node `path.join` (POSIX), workspace cleanup, log sanitization -/

/-- Split a character list at `/` separators. -/
def splitSlash : List Char → List (List Char)
  | [] => [[]]
  | c :: cs =>
    if c = '/' then [] :: splitSlash cs
    else
      match splitSlash cs with
      | [] => [[c]]
      | l :: ls => (c :: l) :: ls

/-- Normalize path segments: drop empty and `.` segments, resolve `..`
(popping the previous segment; at the root of an absolute path a `..` is
dropped, in a relative path leading `..`s accumulate).  `acc` is the
reversed output. -/
def normSegs (isAbs : Bool) (acc : List (List Char)) :
    List (List Char) → List (List Char)
  | [] => acc.reverse
  | s :: rest =>
    if s = [] || s = ['.'] then normSegs isAbs acc rest
    else if s = ['.', '.'] then
      match acc with
      | [] => if isAbs then normSegs isAbs [] rest
              else normSegs isAbs [s] rest
      | h :: t =>
        if h = ['.', '.'] then normSegs isAbs (s :: acc) rest
        else normSegs isAbs t rest
    else normSegs isAbs (s :: acc) rest

/-- Model of Node `path.join(a, b)` on POSIX paths: concatenate with a
separator, then normalize (`.`/empty segments dropped, `..` resolved). -/
def pathJoin (a b : String) : String :=
  let isAbs := a.data.head? = some '/'
  let segs := normSegs isAbs [] (splitSlash (a.data ++ '/' :: b.data))
  if isAbs then String.mk ('/' :: List.intercalate ['/'] segs)
  else if segs.isEmpty then "."
  else String.mk (List.intercalate ['/'] segs)

/-- Model of `cleanup(dir)` (`deployController.js` lines 21–25): the
recursive forced deletion is attempted iff `dir` is truthy (non-empty) and
`dir.startsWith(TEMP_DIR)`. -/
def cleanupDeletes (tempDir dir : String) : Bool :=
  !dir.data.isEmpty && strStartsWith dir tempDir

/-- The process environment visible to `sanitizeLog`; `none` models an
unset (or empty, hence falsy) variable. -/
structure ProcEnv where
  flyApiToken : Option String
  openaiApiKey : Option String

/-- Model of `sanitizeLog` (`deployController.js` lines 14–19): if neither
`FLY_API_TOKEN` nor `OPENAI_API_KEY` is set the message passes through;
otherwise every occurrence of the `FLY_API_TOKEN` value is replaced by
`[REDACTED_TOKEN]`.  No other value is ever redacted. -/
def sanitizeLog (env : ProcEnv) (msg : String) : String :=
  if env.flyApiToken = none ∧ env.openaiApiKey = none then msg
  else
    match env.flyApiToken with
    | some t => String.mk (replaceLit t.data "[REDACTED_TOKEN]".data msg.data)
    | none => msg

/-! ## Executable acquisition (`installer.js`) -/

/-- Process-wide mutable state of `installer.js`: the module-level
`flyBinPath` cache, the shared `installationPromise` (promises are numbered
so sharing is observable), and a count of
`performAntifragileInstallation` invocations. -/
structure InstallerState where
  flyBinPath : Option String
  installationPromise : Option Nat
  installCount : Nat
  nextPromise : Nat
  deriving DecidableEq

/-- What one call to `getFlyExe` hands back to its caller. -/
inductive AcquireResult
  | resolved (path : String)
  | awaiting (promise : Nat)
  deriving DecidableEq

/-- Fresh module state (installer.js lines 13–14). -/
def initialInstallerState : InstallerState := ⟨none, none, 0, 0⟩

/-- The `installationPromise === null` branch of `getFlyExe`: join the
in-flight promise if one exists, else start one installation. -/
def getFlyExeSpawn (s : InstallerState) : InstallerState × AcquireResult :=
  match s.installationPromise with
  | some pid => (s, .awaiting pid)
  | none =>
    ({ s with installationPromise := some s.nextPromise,
              installCount := s.installCount + 1,
              nextPromise := s.nextPromise + 1 },
     .awaiting s.nextPromise)

/-- One execution of the body of `getFlyExe` (installer.js lines 159–167).
The body contains no `await` before returning, so under JavaScript
run-to-completion semantics it is atomic with respect to other calls.
`ex` models `existsSync`. -/
def getFlyExe (ex : String → Bool) (s : InstallerState) :
    InstallerState × AcquireResult :=
  match s.flyBinPath with
  | some p => if ex p then (s, .resolved p) else getFlyExeSpawn s
  | none => getFlyExeSpawn s

/-- Completion of the shared installation promise with path `p` (the
`.then` handler, installer.js line 163): cache the path, clear the
in-flight marker.  Every caller holding the same promise number observes
this same `p`. -/
def resolveInstall (s : InstallerState) (p : String) : InstallerState :=
  { s with flyBinPath := some p, installationPromise := none }

/-! ## AI strategy context assembly (`ai.js`) -/

/-- The fixed file list read by `AIStrategy.analyze` (ai.js line 14). -/
def aiContextFiles : List String :=
  ["package.json", "fly.toml", "Dockerfile", "requirements.txt", "go.mod",
   "prisma/schema.prisma", "config.yml"]

/-- Context assembly of `AIStrategy.analyze` (ai.js lines 13–20):
concatenate `"\n" + name + ":\n" + content` for every file that could be
read (in the fixed order), then keep only the characters from index 12000
on (`c.slice(12000)`). -/
def aiContext (reads : String → Option (List Char)) : List Char :=
  (aiContextFiles.foldl
    (fun acc f =>
      match reads f with
      | some content => acc ++ nl :: f.data ++ ':' :: nl :: content
      | none => acc) []).drop 12000

/-- The short-circuit test of `AIStrategy.analyze` (ai.js line 24): the
inference provider is skipped iff the caller prefers an existing config
and the assembled (sliced) context contains the substring `"fly.toml:"`. -/
def aiShortCircuits (reads : String → Option (List Char))
    (preferExistingConfig : Bool) : Bool :=
  preferExistingConfig && containsSeq "fly.toml:".data (aiContext reads)

/-! ## The deployment event stream (`deployController.js`) -/

/-- Event categories of the server-sent stream. -/
inductive EType
  | info | log | warning | error | success
  deriving DecidableEq

/-- One server-sent event.  `stream`-emitted events populate only `message`
and `etype`; the final success write (line 251) carries `appUrl` and
`appNameField` instead of a message. -/
structure Event where
  message : String
  etype : EType
  appUrl : Option String := none
  appNameField : Option String := none
  deriving DecidableEq

/-- Terminal event in the sense of the spec's glossary ("the single event
that signals definitive success or failure and ends the stream"): an
error-category event, or the final success write — recognisable by the
`appUrl` field only it carries. -/
def isStreamTerminal (e : Event) : Bool :=
  e.etype == EType.error || e.appUrl.isSome

/-- The claim's own reading of "terminal event (success or error)": any
event of the success or error *category*.  Stated from the claim's words,
for comparison with what the program emits. -/
def isSuccessOrErrorEvent (e : Event) : Bool :=
  e.etype == EType.error || e.etype == EType.success

/-- External commands / filesystem writes performed by a run, in order. -/
inductive Action
  | credCheck | writeToml | writeDockerfile | writeAux (name : String)
  | writeDockerignore | appsCreate | volumesList | volumesCreate
  | secretsSet | deployCmd | statusCmd
  deriving DecidableEq

/-- An emission of the run: an event written to the response stream or an
externally visible action. -/
inductive Emit
  | ev (e : Event)
  | act (a : Action)
  deriving DecidableEq

def evsOf (l : List Emit) : List Event :=
  l.filterMap fun x => match x with | .ev e => some e | .act _ => none

def actsOf (l : List Emit) : List Action :=
  l.filterMap fun x => match x with | .ev _ => none | .act a => some a

/-- A stage computation: emissions so far plus either a value or the thrown
error message (the first thrown error aborts the rest of the `try` body). -/
def DM (α : Type) : Type := List Emit × Except String α

def dmBind {α β : Type} (x : DM α) (f : α → DM β) : DM β :=
  match x with
  | (l, .error e) => (l, .error e)
  | (l, .ok a) => (l ++ (f a).1, (f a).2)

def dmRet {α : Type} (a : α) : DM α := ([], .ok a)

/-- The `stream` helper (deployController lines 38–41): sanitize, then tag
with a category. -/
def mkEv (env : ProcEnv) (msg : String) (ty : EType) : Event :=
  { message := sanitizeLog env msg, etype := ty }

/-- `'v'` — a name wrapped in single quotes, as interpolated in several
stream messages. -/
def squote (v : String) : String := String.mk (sq :: v.data ++ [sq])

/-- `/^[a-z0-9-]+$/` (deployController line 11). -/
def isNameChar (c : Char) : Bool := ('a' ≤ c && c ≤ 'z') || c.isDigit || c = '-'

def validAppName (s : String) : Bool := !s.data.isEmpty && s.data.all isNameChar

/-- `/^https?:\/\/(www\.)?github\.com\/[a-zA-Z0-9-]+\/[a-zA-Z0-9-._]+$/`
(deployController line 12). -/
def isUrlSeg1 (c : Char) : Bool := c.isAlpha || c.isDigit || c = '-'

def isUrlSeg2 (c : Char) : Bool := isUrlSeg1 c || c = '.' || c = '_'

def validRepoUrl (s : String) : Bool :=
  match stripPref "http".data s.data with
  | none => false
  | some r1 =>
    let r2 := match stripPref "s".data r1 with | some x => x | none => r1
    match stripPref "://".data r2 with
    | none => false
    | some r3 =>
      let r4 := match stripPref "www.".data r3 with | some x => x | none => r3
      match stripPref "github.com/".data r4 with
      | none => false
      | some r5 =>
        let seg1 := r5.takeWhile isUrlSeg1
        match r5.dropWhile isUrlSeg1 with
        | c :: r6 => !seg1.isEmpty && c = '/' && !r6.isEmpty && r6.all isUrlSeg2
        | [] => false

/-- The request body consumed by `deployApp` (line 28).  `none` models an
absent (or non-string) optional field. -/
structure DeployRequest where
  sessionId : String
  flyToken : String
  flyToml : String
  dockerfile : Option String
  appName : String
  region : String
  repoUrl : String
  githubToken : Option String
  preferExistingConfig : Bool
  files : List (String × String)
  secrets : List (String × String)
  healthCheckPath : Option String

/-- Oracle for every external interaction of one deploy run.  Quantifying
over a `DeployWorld` quantifies over all subprocess / filesystem / HTTP
outcomes the run can observe. -/
structure DeployWorld where
  /-- Result of `getFlyExe()`. -/
  flyExe : Except String String
  /-- Whether `flyctl orgs list` succeeds (lines 64–68). -/
  credsOk : Bool
  /-- Whether the session workspace already exists and is non-empty
  (lines 71–78), in which case no download happens. -/
  prepReused : Bool
  /-- Result of `downloadRepo` when a fresh fetch is needed (line 82). -/
  download : Except String Unit
  /-- Content of an existing `fly.toml`, if readable (line 90). -/
  existingToml : Option String
  /-- YAML files seen by the policy engine and whether each matches the
  DNS-patch pattern (policy.js lines 14–30). -/
  policyYaml : List (String × Bool)
  /-- Whether the Dockerfile contains `COPY config.yaml` (policy.js 35–37). -/
  policyDockerCopiesConfig : Bool
  /-- Whether `config.yaml` already exists (policy.js line 39). -/
  policyConfigExists : Bool
  /-- A filesystem error inside `PolicyEngine.apply`, thrown after the
  given number of policy emissions (none: the policy pass completes). -/
  policyErr : Option (Nat × String)
  /-- Stdout chunks of `flyctl apps create` (line 134). -/
  regChunks : List String
  /-- Outcome of `flyctl apps create`; the error carries the combined
  `stderr + stdout` text tested on line 138. -/
  reg : Except String Unit
  /-- Mount source parsed from the manifest (lines 143–155), if any. -/
  volName : Option String
  /-- Whether `flyctl volumes list` reports the volume (lines 159–164). -/
  volExists : Bool
  /-- Outcome of `flyctl volumes create` (lines 168–176). -/
  volCreate : Except String Unit
  /-- Outcome of `flyctl secrets set` (line 198). -/
  secretsSet : Except String Unit
  /-- Trimmed line chunks of the deploy subprocess output (lines 214–215). -/
  deployChunks : List String
  /-- Exit outcome of `flyctl deploy` (line 217). -/
  deployRes : Except String Unit
  /-- Parsed `flyctl status --json`: `Hostname` (absent if undefined) and
  `Name`; an error models a failed command or unparsable JSON. -/
  statusRes : Except String (Option String × String)
  /-- HTTP status of health-probe attempt `i` (none: `fetch` threw). -/
  health : Nat → Option Nat

/-! ### Stages of the `try` body, in source order -/

def stGetExe (w : DeployWorld) : DM Unit :=
  ([], match w.flyExe with | .ok _ => .ok () | .error e => .error e)

def stCreds (env : ProcEnv) (w : DeployWorld) : DM Unit :=
  ([.ev (mkEv env "🕵️ Verifying credentials..." .info), .act .credCheck],
   if w.credsOk then .ok ()
   else .error "Invalid Fly.io Token or Permissions. Please check your token and try again.")

def stPrep (env : ProcEnv) (w : DeployWorld) : DM Unit :=
  if w.prepReused then ([], .ok ())
  else ([.ev (mkEv env "Downloading source..." .info)],
        match w.download with | .ok _ => .ok () | .error e => .error e)

/-- Lines 85–101: the `Writing config...` event, the `Missing fly.toml`
throw when an existing manifest is preferred but absent, normalization,
and the manifest write. -/
def stWriteConfig (env : ProcEnv) (req : DeployRequest) (w : DeployWorld) :
    DM String :=
  let evW : Emit := .ev (mkEv env "Writing config..." .info)
  if req.preferExistingConfig then
    match w.existingToml with
    | some c =>
      ([evW, .act .writeToml], .ok (normalizeToml req.appName req.region c))
    | none => ([evW], .error "Missing fly.toml")
  else
    ([evW, .act .writeToml],
     .ok (normalizeToml req.appName req.region req.flyToml))

def stDockerfile (req : DeployRequest) : DM Unit :=
  (match req.dockerfile with
   | some d => if (strTrim d).data.isEmpty then [] else [.act .writeDockerfile]
   | none => [], .ok ())

def stFiles (env : ProcEnv) (req : DeployRequest) : DM Unit :=
  ((req.files.map (fun f =>
      [Emit.act (.writeAux f.1),
       Emit.ev (mkEv env ("Generated " ++ f.1) .info)])).flatten,
   .ok ())

def stDockerignore (env : ProcEnv) : DM Unit :=
  ([.ev (mkEv env "🛡️ Sanitizing Build Context..." .info),
    .act .writeDockerignore], .ok ())

/-- Events of `PolicyEngine.apply` (policy.js): one info event per patched
YAML file, then a warning if the Dockerfile copies a missing
`config.yaml`. -/
def policyEvents (env : ProcEnv) (w : DeployWorld) : List Emit :=
  (w.policyYaml.filter (fun p => p.2)).map
    (fun p => .ev (mkEv env
      ("🛡️ Policy: Patching DNS schema in " ++ p.1 ++ "...") .info))
  ++ (if w.policyDockerCopiesConfig && !w.policyConfigExists then
        [.ev (mkEv env
          "⚠️ Policy: Missing config.yaml detected for Proxy app. Injecting default..."
          .warning)]
      else [])

def stPolicy (env : ProcEnv) (w : DeployWorld) : DM Unit :=
  match w.policyErr with
  | some p => ((policyEvents env w).take p.1, .error p.2)
  | none => (policyEvents env w, .ok ())

def containsTakenOrExists (m : String) : Bool :=
  strIncludes m "taken" || strIncludes m "exists"

/-- Lines 131–139: registration never rethrows; a failure whose combined
output mentions `taken` or `exists` streams a warning, any other failure is
silently swallowed. -/
def stRegister (env : ProcEnv) (w : DeployWorld) : DM Unit :=
  ([.ev (mkEv env "Registering app..." .info), .act .appsCreate] ++
   w.regChunks.map (fun c => .ev (mkEv env ("[Reg] " ++ strTrim c) .log)) ++
   (match w.reg with
    | .ok _ => []
    | .error m =>
      if containsTakenOrExists m then
        [.ev (mkEv env "App exists, updating..." .warning)]
      else []),
   .ok ())

/-- Lines 141–187: volume detection and provisioning; every failure inside
is caught and reported as a warning, never fatal. -/
def stVolumes (env : ProcEnv) (req : DeployRequest) (w : DeployWorld) :
    DM Unit :=
  (match w.volName with
   | none => []
   | some v =>
     [.ev (mkEv env ("📦 Detected Volume Request: " ++ squote v) .info),
      .act .volumesList] ++
     (if w.volExists then
        [.ev (mkEv env ("✅ Volume " ++ squote v ++ " already exists.") .info)]
      else
        [.ev (mkEv env ("🛠️ Creating Volume " ++ squote v ++ " in " ++
          req.region ++ "...") .info), .act .volumesCreate] ++
        (match w.volCreate with
         | .ok _ =>
           [.ev (mkEv env ("✅ Volume " ++ squote v ++
             " created successfully.") .success)]
         | .error e =>
           [.ev (mkEv env ("⚠️ Failed to create volume: " ++ e ++ ".")
             .warning)])),
   .ok ())

/-- Lines 189–204: secret provisioning; failure is a warning, never
fatal. -/
def stSecrets (env : ProcEnv) (req : DeployRequest) (w : DeployWorld) :
    DM Unit :=
  (if req.secrets.isEmpty then []
   else
     let args := req.secrets.filter
       (fun kv => !kv.1.data.isEmpty && !kv.2.data.isEmpty)
     [.ev (mkEv env "🔐 Configuring secrets..." .info)] ++
     (if args.isEmpty then []
      else
        [.act .secretsSet] ++
        match w.secretsSet with
        | .ok _ =>
          [.ev (mkEv env ("✅ Set " ++ toString args.length ++
            " secret(s) successfully.") .success)]
        | .error e =>
          [.ev (mkEv env ("⚠️ Failed to set secrets: " ++ e) .warning)]),
   .ok ())

/-- Lines 208–217: the deploy subprocess; its trimmed non-empty output
lines stream as raw-log events, a non-zero exit throws. -/
def stDeploy (env : ProcEnv) (w : DeployWorld) : DM Unit :=
  ([.ev (mkEv env "Deploying..." .log), .act .deployCmd] ++
   ((w.deployChunks.map strTrim).filter
      (fun l => !l.data.isEmpty)).map (fun l => .ev (mkEv env l .log)),
   match w.deployRes with | .ok _ => .ok () | .error e => .error e)

def stStatus (w : DeployWorld) : DM (Option String × String) :=
  ([.act .statusCmd],
   match w.statusRes with | .ok p => .ok p | .error e => .error e)

/-- `Response.ok`: HTTP status in the 200–299 range. -/
def isOkStatus (st : Nat) : Bool := 200 ≤ st && st < 300

/-- The probe loop (lines 230–244): up to `fuel` attempts (5 in the
source), each followed by a fixed 5-second delay; an attempt with a 2xx
status stops the loop with a success event, any other status or a thrown
`fetch` emits a log event and the loop continues. -/
def healthAttempts (env : ProcEnv) (h : Nat → Option Nat) (i : Nat) :
    Nat → List Emit × Bool
  | 0 => ([], false)
  | fuel + 1 =>
    match h i with
    | some st =>
      if isOkStatus st then
        ([.ev (mkEv env ("✅ Health check passed (" ++ toString st ++ ")")
           .success)], true)
      else
        let r := healthAttempts env h (i + 1) fuel
        (.ev (mkEv env ("Health check pending (" ++ toString st ++ ")...")
          .log) :: r.1, r.2)
    | none =>
      let r := healthAttempts env h (i + 1) fuel
      (.ev (mkEv env "Waiting for DNS propagation..." .log) :: r.1, r.2)

/-- `https://<hostname><path>` with the caller's health path, defaulting to
`/` when the field is absent or empty (falsy in `healthCheckPath || '/'`,
line 225). -/
def healthUrl (req : DeployRequest) (hn : String) : String :=
  "https://" ++ hn ++
    (match req.healthCheckPath with
     | some p => if p.data.isEmpty then "/" else p
     | none => "/")

/-- Lines 224–249: health verification, only when a hostname is known;
exhausting the five attempts downgrades to a warning. -/
def stHealth (env : ProcEnv) (req : DeployRequest) (w : DeployWorld)
    (hostname : Option String) : DM Unit :=
  (match hostname with
   | none => []
   | some hn =>
     let r := healthAttempts env w.health 0 5
     [.ev (mkEv env ("💓 Verifying deployment health at " ++
       healthUrl req hn ++ "...") .info)] ++ r.1 ++
     (if r.2 then []
      else [.ev (mkEv env ("⚠️ App deployed, but health check failed at " ++
        healthUrl req hn ++ ".") .warning)]),
   .ok ())

/-- The body of the `try` block of `deployApp` (lines 46–249): the stages
in source order, aborted by the first thrown error. -/
def tryBody (env : ProcEnv) (req : DeployRequest) (w : DeployWorld) :
    DM (Option String × String) :=
  dmBind (stGetExe w) fun _ =>
  dmBind (stCreds env w) fun _ =>
  dmBind (stPrep env w) fun _ =>
  dmBind (stWriteConfig env req w) fun _ =>
  dmBind (stDockerfile req) fun _ =>
  dmBind (stFiles env req) fun _ =>
  dmBind (stDockerignore env) fun _ =>
  dmBind (stPolicy env w) fun _ =>
  dmBind (stRegister env w) fun _ =>
  dmBind (stVolumes env req w) fun _ =>
  dmBind (stSecrets env req w) fun _ =>
  dmBind (stDeploy env w) fun _ =>
  dmBind (stStatus w) fun status =>
  dmBind (stHealth env req w status.1) fun _ =>
  dmRet status

/-- The final success write (line 251): carries the public URL computed
from the status hostname (`https://undefined` when the field is absent,
as JavaScript template interpolation renders it) and the app name. -/
def successEvent (hostname : Option String) (name : String) : Event :=
  { message := "", etype := .success,
    appUrl := some ("https://" ++ hostname.getD "undefined"),
    appNameField := some name }

/-- What one `deployApp` invocation leaves behind. -/
structure DeployResult where
  events : List Event
  actions : List Action
  /-- The directory removed by the `finally` cleanup, if any. -/
  deleted : Option String

/-- Full model of `deployApp` (deployController lines 27–261): the two
boundary validations answer with a single error event and stop (before the
`try`/`finally`, so no cleanup); otherwise the `try` body runs, a thrown
error becomes the single sanitized terminal error event, success becomes
the single success write, and the `finally` cleanup always runs on
`path.join(TEMP_DIR, sessionId)`. -/
def deployApp (env : ProcEnv) (req : DeployRequest) (w : DeployWorld)
    (tempDir : String) : DeployResult :=
  if !validRepoUrl req.repoUrl then
    { events := [{ message := "Invalid Repo URL", etype := .error }],
      actions := [], deleted := none }
  else if !validAppName req.appName then
    { events := [{ message := "Invalid App Name", etype := .error }],
      actions := [], deleted := none }
  else
    let workDir := pathJoin tempDir req.sessionId
    let r := tryBody env req w
    { events :=
        match r.2 with
        | .ok st => evsOf r.1 ++ [successEvent st.1 st.2]
        | .error m =>
          evsOf r.1 ++ [mkEv env ("Error: " ++ sanitizeLog env m) .error]
      actions := actsOf r.1
      deleted := if cleanupDeletes tempDir workDir then some workDir
                 else none }

/-! ## Concrete instances used to evaluate the model -/

/-- Every event emitted inside the `try` body is non-terminal: produced by
`stream`, hence without `appUrl`, and never of the error category. -/
def nonTerminalEmit (x : Emit) : Prop :=
  match x with
  | .ev e => e.appUrl = none ∧ e.etype ≠ EType.error
  | .act _ => True

/-- A well-formed baseline deploy request. -/
def okReq : DeployRequest :=
  { sessionId := "abc123", flyToken := "sekret-fly-token",
    flyToml := "port = 80", dockerfile := none, appName := "test-app",
    region := "iad", repoUrl := "https://github.com/acme/hello",
    githubToken := none, preferExistingConfig := false, files := [],
    secrets := [], healthCheckPath := none }

/-- A world in which every external interaction succeeds. -/
def okWorld : DeployWorld :=
  { flyExe := .ok "/home/fly/.fly/bin/flyctl", credsOk := true,
    prepReused := true, download := .ok (), existingToml := none,
    policyYaml := [], policyDockerCopiesConfig := false,
    policyConfigExists := false, policyErr := none, regChunks := [],
    reg := .ok (), volName := none, volExists := false, volCreate := .ok (),
    secretsSet := .ok (), deployChunks := [], deployRes := .ok (),
    statusRes := .ok (some "test-app.fly.dev", "test-app"),
    health := fun _ => some 200 }

/-- A run whose deploy subprocess echoes the request's platform token. -/
def leakWorld : DeployWorld :=
  { okWorld with deployChunks := ["auth sekret-fly-token rejected"] }

/-- A run whose `apps create` fails with an error mentioning neither
`taken` nor `exists`. -/
def regFailWorld : DeployWorld :=
  { okWorld with reg := .error "Network unreachable" }

/-- A manifest with no `^app\s*=` line in which the single-quoted `checks`
stripping pass exposes one: `checks = 'a'app = x`. -/
def hiddenAppManifest : String :=
  String.mk ("checks = ".data ++ sq :: 'a' :: sq :: "app = x".data)

/-- File reads where no `fly.toml` exists but `package.json` is long enough
that its embedded `fly.toml:` text survives `c.slice(12000)`. -/
def aiHiddenReads : String → Option (List Char) := fun f =>
  if f = "package.json" then
    some (List.replicate 11985 ' ' ++ "fly.toml:".data)
  else none

/-! ## Lemmas about the string utilities -/

theorem stripPref_eq {ps l r : List Char} (h : stripPref ps l = some r) :
    l = ps ++ r := by
  induction ps generalizing l with
  | nil => simp [stripPref] at h; simp [h]
  | cons p ps ih =>
    cases l with
    | nil => simp [stripPref] at h
    | cons c cs =>
      simp only [stripPref] at h
      split at h
      · next heq => subst heq; simpa using ih h
      · exact absurd h (by simp)

theorem stripPref_suffix {ps l r : List Char} (h : stripPref ps l = some r) :
    r <:+ l := ⟨ps, (stripPref_eq h).symm⟩

theorem stripPref_length {ps l r : List Char} (h : stripPref ps l = some r) :
    r.length + ps.length = l.length := by
  have := stripPref_eq h; subst this; simp [Nat.add_comm]

/-! ## Lemmas about the rewrite scanners -/

theorem stripPref_of_append (k x : List Char) :
    stripPref k (k ++ x) = some x := by
  induction k with
  | nil => rfl
  | cons a as ih => simp [stripPref, ih]

theorem stripPref_append {k l r : List Char} (h : stripPref k l = some r)
    (s : List Char) : stripPref k (l ++ s) = some (r ++ s) := by
  rw [stripPref_eq h, List.append_assoc]
  exact stripPref_of_append k (r ++ s)

theorem stripPref_head_ne {k c : Char} {ks cs : List Char} (h : k ≠ c) :
    stripPref (k :: ks) (c :: cs) = none := by
  simp [stripPref, h]

theorem dropWs_suffix (l : List Char) : dropWs l <:+ l := by
  induction l with
  | nil => exact List.suffix_refl _
  | cons c cs ih =>
    by_cases h : isJsWs c = true
    · simp only [dropWs, h, if_true]
      exact ih.trans (List.suffix_cons c cs)
    · simp only [dropWs, h, Bool.false_eq_true, if_false]
      exact List.suffix_refl _

theorem dropWs_length_le (l : List Char) : (dropWs l).length ≤ l.length :=
  (dropWs_suffix l).length_le

theorem dropWs_append {l : List Char} {c : Char} {r : List Char}
    (h : dropWs l = c :: r) (s : List Char) :
    dropWs (l ++ s) = c :: (r ++ s) := by
  induction l with
  | nil => simp [dropWs] at h
  | cons a as ih =>
    by_cases ha : isJsWs a = true
    · simp only [dropWs, ha, if_true] at h
      simpa [dropWs, ha] using ih h
    · simp only [dropWs, ha, Bool.false_eq_true, if_false] at h
      rcases h with ⟨rfl, rfl⟩
      simp [dropWs, ha]

theorem dropToEol_suffix (l : List Char) : dropToEol l <:+ l := by
  induction l with
  | nil => exact List.suffix_refl _
  | cons c cs ih =>
    by_cases h : isLineTerm c = true
    · simp only [dropToEol, h, if_true]
      exact List.suffix_refl _
    · simp only [dropToEol, h, Bool.false_eq_true, if_false]
      exact ih.trans (List.suffix_cons c cs)

theorem dropToEol_shape (l : List Char) :
    dropToEol l = [] ∨
      ∃ d z, dropToEol l = d :: z ∧ isLineTerm d = true := by
  induction l with
  | nil => exact Or.inl rfl
  | cons c cs ih =>
    by_cases h : isLineTerm c = true
    · exact Or.inr ⟨c, cs, by simp [dropToEol, h], h⟩
    · simpa [dropToEol, h] using ih

theorem dropToEol_clean_append {u : List Char}
    (hu : ∀ c ∈ u, isLineTerm c = false) {d : Char}
    (hd : isLineTerm d = true) (z : List Char) :
    dropToEol (u ++ d :: z) = d :: z := by
  induction u with
  | nil => simp [dropToEol, hd]
  | cons a as ih =>
    have ha : isLineTerm a = false := hu a (by simp)
    simp only [List.cons_append, dropToEol, ha, Bool.false_eq_true, if_false]
    exact ih (fun c hc => hu c (by simp [hc]))

theorem afterLastOnLine_suffix {q : Char} {l r : List Char}
    (h : afterLastOnLine q l = some r) : r <:+ l := by
  induction l with
  | nil => simp [afterLastOnLine] at h
  | cons c cs ih =>
    by_cases hct : isLineTerm c = true
    · simp [afterLastOnLine, hct] at h
    · simp only [afterLastOnLine, hct, Bool.false_eq_true, if_false] at h
      cases heq : afterLastOnLine q cs with
      | some r2 =>
        rw [heq] at h
        simp only [Option.some.injEq] at h
        subst h
        exact (ih heq).trans (List.suffix_cons c cs)
      | none =>
        rw [heq] at h
        by_cases hc : c = q
        · simp only [if_pos hc, Option.some.injEq] at h
          subst h
          exact List.suffix_cons c cs
        · simp [if_neg hc] at h

/-! ### Line structure -/

theorem splitLines_ne_nil (cs : List Char) : splitLines cs ≠ [] := by
  cases cs with
  | nil => simp [splitLines]
  | cons c cs =>
    simp only [splitLines]
    split
    · simp
    · split <;> simp

theorem splitLines_term {c : Char} (h : isLineTerm c = true)
    (cs : List Char) : splitLines (c :: cs) = [] :: splitLines cs := by
  simp [splitLines, h]

theorem takeLine_nil : takeLine [] = [] := rfl

theorem takeLine_term {c : Char} (h : isLineTerm c = true) (cs : List Char) :
    takeLine (c :: cs) = [] := by
  simp [takeLine, List.takeWhile_cons, h]

theorem takeLine_not_term {c : Char} (h : isLineTerm c = false)
    (cs : List Char) : takeLine (c :: cs) = c :: takeLine cs := by
  simp [takeLine, List.takeWhile_cons, h]

theorem splitLines_eq_take (cs : List Char) :
    splitLines cs = takeLine cs :: (splitLines cs).tail := by
  induction cs with
  | nil => rfl
  | cons c cs' ih =>
    by_cases hct : isLineTerm c = true
    · rw [splitLines_term hct, takeLine_term hct]
      simp
    · have hb : isLineTerm c = false := by simpa using hct
      rcases hsp : splitLines cs' with _ | ⟨l, ls⟩
      · exact absurd hsp (splitLines_ne_nil cs')
      · have hih := ih
        rw [hsp] at hih
        have hl : l = takeLine cs' := by
          injection hih
        subst hl
        simp only [splitLines, hb, Bool.false_eq_true, if_false, hsp,
          takeLine_not_term hb, List.tail_cons]

theorem splitLines_not_term {c : Char} (h : isLineTerm c = false)
    (cs : List Char) :
    splitLines (c :: cs) = (c :: takeLine cs) :: (splitLines cs).tail := by
  rcases hsp : splitLines cs with _ | ⟨l, ls⟩
  · exact absurd hsp (splitLines_ne_nil cs)
  · have hih := splitLines_eq_take cs
    rw [hsp] at hih
    have hl : l = takeLine cs := by injection hih
    subst hl
    simp only [splitLines, h, Bool.false_eq_true, if_false, hsp,
      List.tail_cons]

theorem takeLine_mem (cs : List Char) : takeLine cs ∈ splitLines cs := by
  rw [splitLines_eq_take cs]
  exact List.mem_cons_self _ _

theorem mem_of_mem_lines_tail {l : List Char} {cs : List Char}
    (h : l ∈ (splitLines cs).tail) : l ∈ splitLines cs := by
  rw [splitLines_eq_take cs]
  exact List.mem_cons_of_mem _ h

theorem suffix_tail_lines {S cs : List Char} (h : S <:+ cs) :
    ∀ l ∈ (splitLines S).tail, l ∈ (splitLines cs).tail := by
  induction cs with
  | nil =>
    have hS : S = [] := List.suffix_nil.mp h
    subst hS
    simp [splitLines]
  | cons c cs' ihc =>
    rcases List.suffix_cons_iff.mp h with rfl | h'
    · exact fun l hl => hl
    · intro l hl
      have hmem := ihc h' l hl
      by_cases hct : isLineTerm c = true
      · rw [splitLines_term hct, List.tail_cons]
        exact mem_of_mem_lines_tail hmem
      · rw [splitLines_not_term (by simpa using hct), List.tail_cons]
        exact hmem

theorem splitLines_no_term {cs : List Char} :
    ∀ l ∈ splitLines cs, ∀ c ∈ l, isLineTerm c = false := by
  induction cs with
  | nil => simp [splitLines]
  | cons c cs' ih =>
    intro l hl
    by_cases hct : isLineTerm c = true
    · rw [splitLines_term hct] at hl
      rcases List.mem_cons.mp hl with rfl | h
      · simp
      · exact ih l h
    · have hb : isLineTerm c = false := by simpa using hct
      rw [splitLines_not_term hb] at hl
      rcases List.mem_cons.mp hl with rfl | h
      · intro d hd
        rcases List.mem_cons.mp hd with rfl | hd'
        · exact hb
        · exact ih (takeLine cs') (takeLine_mem cs') d hd'
      · exact ih l (mem_of_mem_lines_tail h)

theorem splitLines_clean_append {A : List Char}
    (hA : ∀ c ∈ A, isLineTerm c = false) {d : Char}
    (hd : isLineTerm d = true) (X : List Char) :
    splitLines (A ++ d :: X) = A :: splitLines X := by
  induction A with
  | nil => simpa using splitLines_term hd X
  | cons a as ih =>
    have ha : isLineTerm a = false := hA a (by simp)
    have hrec := ih (fun c hc => hA c (by simp [hc]))
    rcases hsp : splitLines (as ++ d :: X) with _ | ⟨l, ls⟩
    · exact absurd hsp (splitLines_ne_nil _)
    · rw [hrec] at hsp
      cases hsp
      simp only [List.cons_append, splitLines, ha, Bool.false_eq_true,
        if_false, List.append_eq, hrec]

/-! ### Match attempts -/

theorem tryLineKV_suffix {key cs r : List Char}
    (h : tryLineKV key cs = some r) : r <:+ cs := by
  unfold tryLineKV at h
  cases h1 : stripPref key cs with
  | none => simp only [h1] at h; exact absurd h (by simp)
  | some r0 =>
    simp only [h1] at h
    cases h2 : dropWs r0 with
    | nil => simp only [h2] at h; exact absurd h (by simp)
    | cons c r2 =>
      simp only [h2] at h
      by_cases hc : c = '='
      · simp only [if_pos hc, Option.some.injEq] at h
        subst h
        have s1 : dropToEol r2 <:+ r2 := dropToEol_suffix r2
        have s2 : r2 <:+ c :: r2 := List.suffix_cons c r2
        have s3 : (c :: r2) <:+ r0 := h2 ▸ dropWs_suffix r0
        exact ((s1.trans s2).trans s3).trans (stripPref_suffix h1)
      · simp [if_neg hc] at h

theorem tryLineKV_length {key cs r : List Char} (hk : key ≠ [])
    (h : tryLineKV key cs = some r) : r.length < cs.length := by
  unfold tryLineKV at h
  cases h1 : stripPref key cs with
  | none => simp only [h1] at h; exact absurd h (by simp)
  | some r0 =>
    simp only [h1] at h
    cases h2 : dropWs r0 with
    | nil => simp only [h2] at h; exact absurd h (by simp)
    | cons c r2 =>
      simp only [h2] at h
      by_cases hc : c = '='
      · simp only [if_pos hc, Option.some.injEq] at h
        subst h
        have l1 : (dropToEol r2).length ≤ r2.length :=
          (dropToEol_suffix r2).length_le
        have l2 : r2.length + 1 ≤ r0.length := by
          have := dropWs_length_le r0
          rw [h2] at this
          simpa using this
        have l3 : r0.length + key.length = cs.length := stripPref_length h1
        have l4 : 1 ≤ key.length := List.length_pos.mpr hk
        omega
      · simp [if_neg hc] at h

theorem tryLineKV_shape {key cs r : List Char}
    (h : tryLineKV key cs = some r) :
    r = [] ∨ ∃ d z, r = d :: z ∧ isLineTerm d = true := by
  unfold tryLineKV at h
  cases h1 : stripPref key cs with
  | none => simp only [h1] at h; exact absurd h (by simp)
  | some r0 =>
    simp only [h1] at h
    cases h2 : dropWs r0 with
    | nil => simp only [h2] at h; exact absurd h (by simp)
    | cons c r2 =>
      simp only [h2] at h
      by_cases hc : c = '='
      · simp only [if_pos hc, Option.some.injEq] at h
        subst h
        exact dropToEol_shape r2
      · simp [if_neg hc] at h

theorem tryChecks_suffix {q : Char} {cs r : List Char}
    (h : tryChecks q cs = some r) : r <:+ cs := by
  unfold tryChecks at h
  cases h1 : stripPref ckKey cs with
  | none =>
    simp only [show stripPref "checks".data cs = none from h1] at h
    exact absurd h (by simp)
  | some r0 =>
    simp only [show stripPref "checks".data cs = some r0 from h1] at h
    cases h2 : dropWs r0 with
    | nil => simp only [h2] at h; exact absurd h (by simp)
    | cons c r2 =>
      simp only [h2] at h
      by_cases hc : c = '='
      · simp only [if_pos hc] at h
        cases h3 : dropWs r2 with
        | nil => simp only [h3] at h; exact absurd h (by simp)
        | cons d r3 =>
          simp only [h3] at h
          by_cases hdq : d = q
          · simp only [if_pos hdq] at h
            have s1 : r <:+ r3 := afterLastOnLine_suffix h
            have s2 : r3 <:+ d :: r3 := List.suffix_cons d r3
            have s3 : (d :: r3) <:+ r2 := h3 ▸ dropWs_suffix r2
            have s4 : r2 <:+ c :: r2 := List.suffix_cons c r2
            have s5 : (c :: r2) <:+ r0 := h2 ▸ dropWs_suffix r0
            exact ((((s1.trans s2).trans s3).trans s4).trans s5).trans
              (stripPref_suffix h1)
          · simp [if_neg hdq] at h
      · simp [if_neg hc] at h

theorem tryChecks_length {q : Char} {cs r : List Char}
    (h : tryChecks q cs = some r) : r.length < cs.length := by
  unfold tryChecks at h
  cases h1 : stripPref ckKey cs with
  | none =>
    simp only [show stripPref "checks".data cs = none from h1] at h
    exact absurd h (by simp)
  | some r0 =>
    simp only [show stripPref "checks".data cs = some r0 from h1] at h
    cases h2 : dropWs r0 with
    | nil => simp only [h2] at h; exact absurd h (by simp)
    | cons c r2 =>
      simp only [h2] at h
      by_cases hc : c = '='
      · simp only [if_pos hc] at h
        cases h3 : dropWs r2 with
        | nil => simp only [h3] at h; exact absurd h (by simp)
        | cons d r3 =>
          simp only [h3] at h
          by_cases hdq : d = q
          · simp only [if_pos hdq] at h
            have l1 : r.length ≤ r3.length := (afterLastOnLine_suffix h).length_le
            have l2 : r3.length + 1 ≤ r2.length := by
              have := dropWs_length_le r2
              rw [h3] at this
              simpa using this
            have l3 : r2.length + 1 ≤ r0.length := by
              have := dropWs_length_le r0
              rw [h2] at this
              simpa using this
            have l4 : r0.length + ckKey.length = cs.length := stripPref_length h1
            have l5 : ckKey.length = 6 := rfl
            omega
          · simp [if_neg hdq] at h
      · simp [if_neg hc] at h

theorem tryFlag_length {key val cs r : List Char} (hk : key ≠ [])
    (h : tryFlag key val cs = some r) : r.length < cs.length := by
  unfold tryFlag at h
  cases h1 : stripPref key cs with
  | none => simp only [h1] at h; exact absurd h (by simp)
  | some r0 =>
    simp only [h1] at h
    cases h2 : dropWs r0 with
    | nil => simp only [h2] at h; exact absurd h (by simp)
    | cons c r2 =>
      simp only [h2] at h
      by_cases hc : c = '='
      · simp only [if_pos hc] at h
        have l1 : r.length ≤ (dropWs r2).length := by
          have := stripPref_length h
          omega
        have l1b : (dropWs r2).length ≤ r2.length := dropWs_length_le r2
        have l2 : r2.length + 1 ≤ r0.length := by
          have := dropWs_length_le r0
          rw [h2] at this
          simpa using this
        have l3 : r0.length + key.length = cs.length := stripPref_length h1
        have l4 : 1 ≤ key.length := List.length_pos.mpr hk
        omega
      · simp [if_neg hc] at h

theorem lineAssign_nil (key : List Char) : lineAssign key [] = false := by
  cases key <;> rfl

theorem tryLineKV_append_of_assign {key l : List Char}
    (h : lineAssign key l = true) (s : List Char) :
    ∃ r, tryLineKV key (l ++ s) = some r := by
  unfold lineAssign at h
  cases h1 : stripPref key l with
  | none => simp only [h1] at h; exact absurd h (by simp)
  | some r0 =>
    simp only [h1] at h
    cases h2 : dropWs r0 with
    | nil => simp only [h2] at h; exact absurd h (by simp)
    | cons c r1 =>
      simp only [h2] at h
      simp only [decide_eq_true_eq] at h
      subst h
      refine ⟨dropToEol (r1 ++ s), ?_⟩
      unfold tryLineKV
      simp only [stripPref_append h1 s, dropWs_append h2 s]
      simp

theorem lineAssign_takeLine_of_none {key cs : List Char}
    (h : tryLineKV key cs = none) :
    lineAssign key (takeLine cs) = false := by
  by_contra hq
  have ht : lineAssign key (takeLine cs) = true := by
    revert hq; cases lineAssign key (takeLine cs) <;> simp
  obtain ⟨r, hr⟩ := tryLineKV_append_of_assign ht
    (cs.dropWhile (fun c => !isLineTerm c))
  have he : takeLine cs ++ cs.dropWhile (fun c => !isLineTerm c) = cs := by
    unfold takeLine
    exact List.takeWhile_append_dropWhile _ _
  rw [he] at hr
  rw [h] at hr
  exact absurd hr (by simp)

/-! ### Failure of an anchored match from the head line -/

theorem stripPref_none_of_not_head {key : List Char}
    (hkt : ∀ c ∈ key, isLineTerm c = false) :
    ∀ cs : List Char, key.isPrefixOf (takeLine cs) = false →
      stripPref key cs = none := by
  induction key with
  | nil => intro cs h; simp [List.isPrefixOf] at h
  | cons k ks ih =>
    intro cs h
    cases cs with
    | nil => rfl
    | cons c cs' =>
      by_cases hct : isLineTerm c = true
      · have hk : k ≠ c := by
          intro hkc
          rw [hkc] at hkt
          exact absurd (hkt c (by simp)) (by simp [hct])
        exact stripPref_head_ne hk
      · have hb : isLineTerm c = false := by simpa using hct
        rw [takeLine_not_term hb] at h
        by_cases hk : k = c
        · subst hk
          simp only [List.isPrefixOf, beq_self_eq_true, Bool.true_and] at h
          simp only [stripPref, if_pos rfl]
          exact ih (fun d hd => hkt d (by simp [hd])) cs' h
        · exact stripPref_head_ne hk

theorem isPrefixOf_of_stripPref {key cs r : List Char}
    (hkt : ∀ c ∈ key, isLineTerm c = false)
    (h : stripPref key cs = some r) :
    key.isPrefixOf (takeLine cs) = true := by
  by_contra hq
  have hf : key.isPrefixOf (takeLine cs) = false := by
    revert hq; cases key.isPrefixOf (takeLine cs) <;> simp
  rw [stripPref_none_of_not_head hkt cs hf] at h
  exact absurd h (by simp)

theorem containsSeq_of_isPrefixOf {key l : List Char}
    (h : key.isPrefixOf l = true) : containsSeq key l = true := by
  cases l with
  | nil =>
    cases key with
    | nil => rfl
    | cons k ks => simp [List.isPrefixOf] at h
  | cons c ls => simp [containsSeq, h]

theorem containsSeq_cons {key : List Char} {c : Char} {l : List Char}
    (h : containsSeq key l = true) : containsSeq key (c :: l) = true := by
  simp [containsSeq, h]

/-! ### Fuel irrelevance of the pass scanners -/

theorem passMF_fuel {try1 : List Char → Option (List Char)}
    (hc : ∀ cs r, try1 cs = some r → r.length < cs.length) :
    ∀ (f1 f2 : Nat) (b : Bool) (cs : List Char),
      cs.length ≤ f1 → cs.length ≤ f2 →
      passMF try1 f1 b cs = passMF try1 f2 b cs := by
  intro f1
  induction f1 with
  | zero =>
    intro f2 b cs h1 h2
    have : cs = [] := List.length_eq_zero.mp (Nat.le_zero.mp h1)
    subst this
    cases f2 <;> rfl
  | succ f ih =>
    intro f2 b cs h1 h2
    cases cs with
    | nil => cases f2 <;> rfl
    | cons c cs' =>
      cases f2 with
      | zero => simp at h2
      | succ f2' =>
        have hl1 : cs'.length ≤ f := by simp at h1; omega
        have hl2 : cs'.length ≤ f2' := by simp at h2; omega
        cases b with
        | false =>
          simp only [passMF, Bool.false_eq_true, if_false]
          rw [ih f2' (isLineTerm c) cs' hl1 hl2]
        | true =>
          cases htry : try1 (c :: cs') with
          | some rest =>
            have hr := hc _ _ htry
            simp only [List.length_cons] at hr
            simp only [passMF, if_true, htry]
            exact ih f2' false rest (by omega) (by omega)
          | none =>
            simp only [passMF, if_true, htry]
            rw [ih f2' (isLineTerm c) cs' hl1 hl2]

theorem passGF_fuel {try1 : List Char → Option (List Char)}
    {repl : List Char}
    (hc : ∀ cs r, try1 cs = some r → r.length < cs.length) :
    ∀ (f1 f2 : Nat) (cs : List Char),
      cs.length ≤ f1 → cs.length ≤ f2 →
      passGF try1 repl f1 cs = passGF try1 repl f2 cs := by
  intro f1
  induction f1 with
  | zero =>
    intro f2 cs h1 h2
    have : cs = [] := List.length_eq_zero.mp (Nat.le_zero.mp h1)
    subst this
    cases f2 <;> rfl
  | succ f ih =>
    intro f2 cs h1 h2
    cases cs with
    | nil => cases f2 <;> rfl
    | cons c cs' =>
      cases f2 with
      | zero => simp at h2
      | succ f2' =>
        have hl1 : cs'.length ≤ f := by simp at h1; omega
        have hl2 : cs'.length ≤ f2' := by simp at h2; omega
        cases htry : try1 (c :: cs') with
        | some rest =>
          have hr := hc _ _ htry
          simp only [List.length_cons] at hr
          simp only [passGF, htry]
          rw [ih f2' rest (by omega) (by omega)]
        | none =>
          simp only [passGF, htry]
          rw [ih f2' cs' hl1 hl2]

/-! ### Lines surviving a `^key\s*=.*$` delete pass

Each match of the pass starts at a line start and is deleted up to (not
including) the end-of-line terminator, so deletions glue a terminator (or
the text start) to a terminator (or the text end): every line of the
output is an original line that failed the match at its start — hence not
a `key`-assignment line — or an emptied line. -/

theorem passMF_KV_lines {key : List Char} (hk : key ≠ []) :
    ∀ (fuel : Nat) (b : Bool) (cs : List Char), cs.length ≤ fuel →
      ∃ hd tl,
        splitLines (passMF (tryLineKV key) fuel b cs) = hd :: tl ∧
        (∀ l ∈ tl, l = [] ∨
          (l ∈ (splitLines cs).tail ∧ lineAssign key l = false)) ∧
        (b = false → hd = takeLine cs) ∧
        (b = true → hd = [] ∨
          (hd = takeLine cs ∧ lineAssign key hd = false)) := by
  intro fuel
  induction fuel with
  | zero =>
    intro b cs hlen
    have hcs : cs = [] := List.length_eq_zero.mp (Nat.le_zero.mp hlen)
    subst hcs
    exact ⟨[], [], rfl, by simp, fun _ => rfl, fun _ => Or.inl rfl⟩
  | succ f ih =>
    intro b cs hlen
    cases cs with
    | nil => exact ⟨[], [], rfl, by simp, fun _ => rfl, fun _ => Or.inl rfl⟩
    | cons c cs' =>
      have hlen' : cs'.length ≤ f := by simp at hlen; omega
      cases b with
      | false =>
        have hout : passMF (tryLineKV key) (f + 1) false (c :: cs') =
            c :: passMF (tryLineKV key) f (isLineTerm c) cs' := by
          simp [passMF]
        by_cases hct : isLineTerm c = true
        · rw [hct] at hout
          obtain ⟨hd', tl', hsp', htl', _, htrue'⟩ := ih true cs' hlen'
          refine ⟨[], hd' :: tl', ?_, ?_, ?_, ?_⟩
          · rw [hout, splitLines_term hct, hsp']
          · intro l hl
            rw [splitLines_term hct, List.tail_cons]
            rcases List.mem_cons.mp hl with rfl | hl'
            · rcases htrue' rfl with h0 | ⟨hEq, hass⟩
              · exact Or.inl h0
              · exact Or.inr ⟨hEq ▸ takeLine_mem cs', hass⟩
            · rcases htl' l hl' with h0 | ⟨hmem, hass⟩
              · exact Or.inl h0
              · exact Or.inr ⟨mem_of_mem_lines_tail hmem, hass⟩
          · intro _
            rw [takeLine_term hct]
          · intro hx
            exact absurd hx (by simp)
        · have hb : isLineTerm c = false := by simpa using hct
          rw [hb] at hout
          obtain ⟨hd', tl', hsp', htl', hfalse', _⟩ := ih false cs' hlen'
          have hhd : hd' = takeLine cs' := hfalse' rfl
          subst hhd
          have h1 : takeLine (passMF (tryLineKV key) f false cs') =
              takeLine cs' := by
            have := splitLines_eq_take (passMF (tryLineKV key) f false cs')
            rw [hsp'] at this
            simp only [List.tail_cons] at this
            injection this with hh _
            exact hh.symm
          refine ⟨c :: takeLine cs', tl', ?_, ?_, ?_, ?_⟩
          · rw [hout, splitLines_not_term hb, h1, hsp', List.tail_cons]
          · intro l hl
            rw [splitLines_not_term hb, List.tail_cons]
            rcases htl' l hl with h0 | ⟨hmem, hass⟩
            · exact Or.inl h0
            · exact Or.inr ⟨hmem, hass⟩
          · intro _
            exact (takeLine_not_term hb cs').symm
          · intro hx
            exact absurd hx (by simp)
      | true =>
        cases htry : tryLineKV key (c :: cs') with
        | some rest =>
          have hout : passMF (tryLineKV key) (f + 1) true (c :: cs') =
              passMF (tryLineKV key) f false rest := by
            simp [passMF, htry]
          have hrl : rest.length ≤ f := by
            have := tryLineKV_length hk htry
            simp at this
            omega
          obtain ⟨hd, tl, hsp, htl, hfalse, _⟩ := ih false rest hrl
          have hhd : hd = takeLine rest := hfalse rfl
          refine ⟨hd, tl, by rw [hout, hsp], ?_, ?_, ?_⟩
          · intro l hl
            rcases htl l hl with h0 | ⟨hmem, hass⟩
            · exact Or.inl h0
            · exact Or.inr
                ⟨suffix_tail_lines (tryLineKV_suffix htry) l hmem, hass⟩
          · intro hx
            exact absurd hx (by simp)
          · intro _
            left
            rcases tryLineKV_shape htry with rfl | ⟨d, z, rfl, hdz⟩
            · simpa using hhd
            · rw [hhd, takeLine_term hdz]
        | none =>
          have hout : passMF (tryLineKV key) (f + 1) true (c :: cs') =
              c :: passMF (tryLineKV key) f (isLineTerm c) cs' := by
            simp [passMF, htry]
          by_cases hct : isLineTerm c = true
          · rw [hct] at hout
            obtain ⟨hd', tl', hsp', htl', _, htrue'⟩ := ih true cs' hlen'
            refine ⟨[], hd' :: tl', ?_, ?_, ?_, ?_⟩
            · rw [hout, splitLines_term hct, hsp']
            · intro l hl
              rw [splitLines_term hct, List.tail_cons]
              rcases List.mem_cons.mp hl with rfl | hl'
              · rcases htrue' rfl with h0 | ⟨hEq, hass⟩
                · exact Or.inl h0
                · exact Or.inr ⟨hEq ▸ takeLine_mem cs', hass⟩
              · rcases htl' l hl' with h0 | ⟨hmem, hass⟩
                · exact Or.inl h0
                · exact Or.inr ⟨mem_of_mem_lines_tail hmem, hass⟩
            · intro hx
              exact absurd hx (by simp)
            · intro _
              exact Or.inl rfl
          · have hb : isLineTerm c = false := by simpa using hct
            rw [hb] at hout
            obtain ⟨hd', tl', hsp', htl', hfalse', _⟩ := ih false cs' hlen'
            have hhd : hd' = takeLine cs' := hfalse' rfl
            subst hhd
            have h1 : takeLine (passMF (tryLineKV key) f false cs') =
                takeLine cs' := by
              have := splitLines_eq_take (passMF (tryLineKV key) f false cs')
              rw [hsp'] at this
              simp only [List.tail_cons] at this
              injection this with hh _
              exact hh.symm
            refine ⟨c :: takeLine cs', tl', ?_, ?_, ?_, ?_⟩
            · rw [hout, splitLines_not_term hb, h1, hsp', List.tail_cons]
            · intro l hl
              rw [splitLines_not_term hb, List.tail_cons]
              rcases htl' l hl with h0 | ⟨hmem, hass⟩
              · exact Or.inl h0
              · exact Or.inr ⟨hmem, hass⟩
            · intro hx
              exact absurd hx (by simp)
            · intro _
              refine Or.inr ⟨(takeLine_not_term hb cs').symm, ?_⟩
              have := lineAssign_takeLine_of_none htry
              rwa [takeLine_not_term hb cs'] at this

/-! ### The `checks` passes are the identity when no line opens with the
key, and the flag passes when no line mentions their key -/

theorem passMF_checks_id (q : Char) :
    ∀ (fuel : Nat) (b : Bool) (cs : List Char),
      (b = true → ckKey.isPrefixOf (takeLine cs) = false) →
      (∀ l ∈ (splitLines cs).tail, ckKey.isPrefixOf l = false) →
      passMF (tryChecks q) fuel b cs = cs := by
  intro fuel
  induction fuel with
  | zero => intro b cs _ _; rfl
  | succ f ih =>
    intro b cs hhd htl
    cases cs with
    | nil => rfl
    | cons c cs' =>
      have hckt : ∀ d ∈ ckKey, isLineTerm d = false := by decide
      have htryT : b = true → tryChecks q (c :: cs') = none := by
        intro hb
        have hsp := stripPref_none_of_not_head hckt (c :: cs') (hhd hb)
        unfold tryChecks
        simp only [show stripPref "checks".data (c :: cs') = none from hsp]
      have hout : passMF (tryChecks q) (f + 1) b (c :: cs') =
          c :: passMF (tryChecks q) f (isLineTerm c) cs' := by
        cases b with
        | false => simp [passMF]
        | true => simp [passMF, htryT rfl]
      by_cases hct : isLineTerm c = true
      · have htlcs : ∀ l ∈ splitLines cs', ckKey.isPrefixOf l = false := by
          have h2 := htl
          rw [splitLines_term hct, List.tail_cons] at h2
          exact h2
        rw [hout, hct, ih true cs'
          (fun _ => htlcs (takeLine cs') (takeLine_mem cs'))
          (fun l hl => htlcs l (mem_of_mem_lines_tail hl))]
      · have hb : isLineTerm c = false := by simpa using hct
        have htl' : ∀ l ∈ (splitLines cs').tail,
            ckKey.isPrefixOf l = false := by
          intro l hl
          apply htl
          rw [splitLines_not_term hb, List.tail_cons]
          exact hl
        rw [hout, hb, ih false cs' (fun hx => absurd hx (by simp)) htl']

theorem passGF_flag_id {key val repl : List Char}
    (hkt : ∀ d ∈ key, isLineTerm d = false) :
    ∀ (fuel : Nat) (cs : List Char),
      (∀ l ∈ splitLines cs, containsSeq key l = false) →
      passGF (tryFlag key val) repl fuel cs = cs := by
  intro fuel
  induction fuel with
  | zero => intro cs _; rfl
  | succ f ih =>
    intro cs hcs
    cases cs with
    | nil => rfl
    | cons c cs' =>
      have htry : tryFlag key val (c :: cs') = none := by
        cases hsp : stripPref key (c :: cs') with
        | none => unfold tryFlag; simp only [hsp]
        | some r0 =>
          exfalso
          have hpre := isPrefixOf_of_stripPref hkt hsp
          have hcont := containsSeq_of_isPrefixOf hpre
          rw [hcs (takeLine (c :: cs')) (takeLine_mem _)] at hcont
          exact absurd hcont (by simp)
      have hout : passGF (tryFlag key val) repl (f + 1) (c :: cs') =
          c :: passGF (tryFlag key val) repl f cs' := by
        simp [passGF, htry]
      rw [hout]
      congr 1
      apply ih
      intro l hl
      by_cases hct : isLineTerm c = true
      · apply hcs
        rw [splitLines_term hct]
        exact List.mem_cons_of_mem _ hl
      · have hb : isLineTerm c = false := by simpa using hct
        rw [splitLines_eq_take cs'] at hl
        rcases List.mem_cons.mp hl with rfl | hl'
        · by_contra hq
          have hT : containsSeq key (takeLine cs') = true := by
            revert hq
            cases containsSeq key (takeLine cs') <;> simp
          have h2 : containsSeq key (c :: takeLine cs') = true :=
            containsSeq_cons hT
          have h3 := hcs (takeLine (c :: cs')) (takeLine_mem _)
          rw [takeLine_not_term hb] at h3
          rw [h3] at h2
          exact absurd h2 (by simp)
        · apply hcs
          rw [splitLines_not_term hb]
          exact List.mem_cons_of_mem _ hl'

/-! ### Lines of the composed rewrite -/

theorem passMF_KV_lines_weak {key : List Char} (hk : key ≠ [])
    (cs : List Char) (fuel : Nat) (hf : cs.length ≤ fuel) :
    ∀ l ∈ splitLines (passMF (tryLineKV key) fuel true cs),
      l = [] ∨ (l ∈ splitLines cs ∧ lineAssign key l = false) := by
  obtain ⟨hd, tl, hsp, htl, _, htrue⟩ := passMF_KV_lines hk fuel true cs hf
  intro l hl
  rw [hsp] at hl
  rcases List.mem_cons.mp hl with rfl | hl'
  · rcases htrue rfl with h0 | ⟨hEq, hass⟩
    · exact Or.inl h0
    · exact Or.inr ⟨hEq ▸ takeLine_mem cs, hass⟩
  · rcases htl l hl' with h0 | ⟨hmem, hass⟩
    · exact Or.inl h0
    · exact Or.inr ⟨mem_of_mem_lines_tail hmem, hass⟩

theorem passApp_lines (cs : List Char) :
    ∀ l ∈ splitLines (passApp cs),
      l = [] ∨ (l ∈ splitLines cs ∧ lineAssign appKey l = false) :=
  passMF_KV_lines_weak (by decide) cs cs.length (le_refl _)

theorem passPrim_lines (cs : List Char) :
    ∀ l ∈ splitLines (passPrim cs), l = [] ∨ l ∈ splitLines cs := by
  intro l hl
  rcases @passMF_KV_lines_weak prKey (by decide) cs cs.length
    (le_refl _) l hl with h0 | ⟨hmem, _⟩
  · exact Or.inl h0
  · exact Or.inr hmem

theorem passChecks_id {q : Char} {cs : List Char}
    (h : ∀ l ∈ splitLines cs, ckKey.isPrefixOf l = false) :
    passChecks q cs = cs :=
  passMF_checks_id q cs.length true cs
    (fun _ => h (takeLine cs) (takeLine_mem cs))
    (fun l hl => h l (mem_of_mem_lines_tail hl))

theorem passAsm_id {cs : List Char}
    (h : ∀ l ∈ splitLines cs, containsSeq asmKey l = false) :
    passAsm cs = cs :=
  passGF_flag_id (by decide) cs.length cs h

theorem passMin_id {cs : List Char}
    (h : ∀ l ∈ splitLines cs, containsSeq minKey l = false) :
    passMin cs = cs :=
  passGF_flag_id (by decide) cs.length cs h

theorem rewriteBody_lines (t : List Char)
    (hck : ∀ l ∈ splitLines t, ckKey.isPrefixOf l = false)
    (hasm : ∀ l ∈ splitLines t, containsSeq asmKey l = false)
    (hmin : ∀ l ∈ splitLines t, containsSeq minKey l = false) :
    ∀ l ∈ splitLines (rewriteBody t), lineAssign appKey l = false := by
  have hA := passApp_lines t
  have hP := passPrim_lines (passApp t)
  have hPmem : ∀ l ∈ splitLines (passPrim (passApp t)),
      l = [] ∨ l ∈ splitLines t := by
    intro l hl
    rcases hP l hl with rfl | hmem
    · exact Or.inl rfl
    · rcases hA l hmem with h0 | ⟨hmem2, _⟩
      · exact Or.inl h0
      · exact Or.inr hmem2
  have hPA : ∀ l ∈ splitLines (passPrim (passApp t)),
      lineAssign appKey l = false := by
    intro l hl
    rcases hP l hl with rfl | hmem
    · exact lineAssign_nil _
    · rcases hA l hmem with rfl | ⟨_, hass⟩
      · exact lineAssign_nil _
      · exact hass
  have hckP : ∀ l ∈ splitLines (passPrim (passApp t)),
      ckKey.isPrefixOf l = false := by
    intro l hl
    rcases hPmem l hl with rfl | hmem
    · rfl
    · exact hck l hmem
  have hasmP : ∀ l ∈ splitLines (passPrim (passApp t)),
      containsSeq asmKey l = false := by
    intro l hl
    rcases hPmem l hl with rfl | hmem
    · rfl
    · exact hasm l hmem
  have hminP : ∀ l ∈ splitLines (passPrim (passApp t)),
      containsSeq minKey l = false := by
    intro l hl
    rcases hPmem l hl with rfl | hmem
    · rfl
    · exact hmin l hmem
  unfold rewriteBody
  rw [passChecks_id hckP, passChecks_id hckP, passAsm_id hasmP,
    passMin_id hminP]
  exact hPA

/-! ### The normalized manifest's lines -/

theorem isNameChar_not_term {c : Char} (h : isNameChar c = true) :
    isLineTerm c = false := by
  by_contra hq
  have ht : isLineTerm c = true := by
    revert hq
    cases isLineTerm c <;> simp
  have hcv : ((c = nl ∨ c = cr) ∨ c.val = 0x2028) ∨ c.val = 0x2029 := by
    simpa [isLineTerm, Bool.or_eq_true, decide_eq_true_eq] using ht
  simp only [isNameChar, Char.isDigit, Bool.or_eq_true, Bool.and_eq_true,
    decide_eq_true_eq] at h
  rcases hcv with ((rfl | rfl) | hv) | hv
  · rcases h with (⟨h1, _⟩ | ⟨h1, _⟩) | he
    · exact absurd h1 (by decide)
    · exact absurd h1 (by decide)
    · exact absurd he (by decide)
  · rcases h with (⟨h1, _⟩ | ⟨h1, _⟩) | he
    · exact absurd h1 (by decide)
    · exact absurd h1 (by decide)
    · exact absurd he (by decide)
  · rcases h with (⟨_, h2⟩ | ⟨_, h2⟩) | he
    · have h2v : c.val ≤ Char.val 'z' := h2
      rw [hv] at h2v
      exact absurd h2v (by decide)
    · have h2v : c.val ≤ 57 := h2
      rw [hv] at h2v
      exact absurd h2v (by decide)
    · have hev : c.val = Char.val '-' := by rw [he]
      rw [hv] at hev
      exact absurd hev (by decide)
  · rcases h with (⟨_, h2⟩ | ⟨_, h2⟩) | he
    · have h2v : c.val ≤ Char.val 'z' := h2
      rw [hv] at h2v
      exact absurd h2v (by decide)
    · have h2v : c.val ≤ 57 := h2
      rw [hv] at h2v
      exact absurd h2v (by decide)
    · have hev : c.val = Char.val '-' := by rw [he]
      rw [hv] at hev
      exact absurd hev (by decide)

theorem appHeaderLine_clean {n : String} (hn : validAppName n = true) :
    ∀ c ∈ appHeaderLine n, isLineTerm c = false := by
  have hall : ∀ c ∈ n.data, isNameChar c = true := by
    have h2 := ((Bool.and_eq_true _ _).mp hn).2
    exact fun c hc => List.all_eq_true.mp h2 c hc
  intro c hc
  unfold appHeaderLine at hc
  rcases List.mem_append.mp hc with hA | hS
  · rcases List.mem_append.mp hA with hA1 | hA2
    · rw [show "app = ".data = ['a', 'p', 'p', ' ', '=', ' '] from rfl] at hA1
      fin_cases hA1 <;> decide
    · rcases List.mem_cons.mp hA2 with rfl | hN
      · decide
      · exact isNameChar_not_term (hall c hN)
  · rcases List.mem_singleton.mp hS with rfl
    decide

theorem primHeaderLine_clean {r : String}
    (hr : ∀ c ∈ r.data, isLineTerm c = false) :
    ∀ c ∈ primHeaderLine r, isLineTerm c = false := by
  intro c hc
  unfold primHeaderLine at hc
  rcases List.mem_append.mp hc with hA | hS
  · rcases List.mem_append.mp hA with hA1 | hA2
    · rw [show "primary_region = ".data =
        ['p', 'r', 'i', 'm', 'a', 'r', 'y', '_', 'r', 'e', 'g', 'i', 'o',
         'n', ' ', '=', ' '] from rfl] at hA1
      fin_cases hA1 <;> decide
    · rcases List.mem_cons.mp hA2 with rfl | hN
      · decide
      · exact hr c hN
  · rcases List.mem_singleton.mp hS with rfl
    decide

theorem lineAssign_appHeader (n : String) :
    lineAssign appKey (appHeaderLine n) = true := rfl

theorem lineAssign_app_primHeader (r : String) :
    lineAssign appKey (primHeaderLine r) = false := rfl

theorem splitLines_normalizeToml (n r t : String)
    (hn : validAppName n = true)
    (hr : ∀ c ∈ r.data, isLineTerm c = false) :
    splitLines (normalizeToml n r t).data =
      appHeaderLine n :: primHeaderLine r ::
        splitLines (rewriteBody t.data) := by
  have hd : (normalizeToml n r t).data =
      appHeaderLine n ++ nl :: (primHeaderLine r ++ nl ::
        rewriteBody t.data) := by
    show tomlHeader n r ++ rewriteBody t.data = _
    simp [tomlHeader, List.append_assoc]
  rw [hd, splitLines_clean_append (appHeaderLine_clean hn) (by decide),
    splitLines_clean_append (primHeaderLine_clean hr) (by decide)]

/-! ### Re-normalization strips the injected header

`rewriteBody` on `tomlHeader ++ R` deletes the two injected header lines
(keeping their newlines) and then acts on `R` exactly as it does
standalone; likewise two leading newlines are copied unchanged.  This is
the engine of the idempotence refutation. -/

theorem tryLineKV_app_nl (cs : List Char) :
    tryLineKV appKey (nl :: cs) = none := rfl

theorem tryLineKV_pr_nl (cs : List Char) :
    tryLineKV prKey (nl :: cs) = none := rfl

theorem tryChecks_nl (q : Char) (cs : List Char) :
    tryChecks q (nl :: cs) = none := rfl

theorem tryFlag_asm_nl (cs : List Char) :
    tryFlag asmKey "true".data (nl :: cs) = none := rfl

theorem tryFlag_min_nl (cs : List Char) :
    tryFlag minKey "0".data (nl :: cs) = none := rfl

theorem hcTryApp : ∀ (cs r : List Char),
    tryLineKV appKey cs = some r → r.length < cs.length :=
  fun _ _ h => tryLineKV_length (by decide) h

theorem hcTryPr : ∀ (cs r : List Char),
    tryLineKV prKey cs = some r → r.length < cs.length :=
  fun _ _ h => tryLineKV_length (by decide) h

theorem hcTryChecks (q : Char) : ∀ (cs r : List Char),
    tryChecks q cs = some r → r.length < cs.length :=
  fun _ _ h => tryChecks_length h

theorem hcTryAsm : ∀ (cs r : List Char),
    tryFlag asmKey "true".data cs = some r → r.length < cs.length :=
  fun _ _ h => tryFlag_length (by decide) h

theorem hcTryMin : ∀ (cs r : List Char),
    tryFlag minKey "0".data cs = some r → r.length < cs.length :=
  fun _ _ h => tryFlag_length (by decide) h

theorem passMF_match_step {try1 : List Char → Option (List Char)}
    {cs rest : List Char} (hne : cs ≠ []) (h : try1 cs = some rest)
    (f : Nat) : passMF try1 (f + 1) true cs = passMF try1 f false rest := by
  cases cs with
  | nil => exact absurd rfl hne
  | cons c cs0 => simp [passMF, h]

theorem passMF_copy_step {try1 : List Char → Option (List Char)}
    (c : Char) (cs : List Char) (f : Nat) :
    passMF try1 (f + 1) false (c :: cs) =
      c :: passMF try1 f (isLineTerm c) cs := by
  simp [passMF]

theorem passMF_step_nl {try1 : List Char → Option (List Char)}
    {cs : List Char} (h : try1 (nl :: cs) = none) (f : Nat) (b : Bool) :
    passMF try1 (f + 1) b (nl :: cs) = nl :: passMF try1 f true cs := by
  have hterm : isLineTerm nl = true := by decide
  cases b with
  | false => simp [passMF, hterm]
  | true => simp [passMF, h, hterm]

theorem passGF_step_nl {try1 : List Char → Option (List Char)}
    {repl : List Char} {cs : List Char} (h : try1 (nl :: cs) = none)
    (f : Nat) :
    passGF try1 repl (f + 1) (nl :: cs) = nl :: passGF try1 repl f cs := by
  simp [passGF, h]

theorem passMF_copy_false {try1 : List Char → Option (List Char)} :
    ∀ (l : List Char), (∀ c ∈ l, isLineTerm c = false) →
      ∀ (f : Nat) (cs : List Char), l.length ≤ f →
      passMF try1 f false (l ++ cs) =
        l ++ passMF try1 (f - l.length) false cs := by
  intro l
  induction l with
  | nil => intro _ f cs _; simp
  | cons a as ih =>
    intro hcl f cs hlen
    cases f with
    | zero => simp at hlen
    | succ f1 =>
      have ha : isLineTerm a = false := hcl a (by simp)
      have hstep : passMF try1 (f1 + 1) false ((a :: as) ++ cs) =
          a :: passMF try1 f1 (isLineTerm a) (as ++ cs) := by
        simp [passMF]
      rw [hstep, ha,
        ih (fun c hc => hcl c (by simp [hc])) f1 cs (by simp at hlen; omega)]
      have harith : f1 + 1 - (a :: as).length = f1 - as.length := by
        simp only [List.length_cons]
        omega
      rw [harith]
      simp

theorem passMF_copyline_true {try1 : List Char → Option (List Char)}
    {l : List Char} (hne : l ≠ [])
    (hcl : ∀ c ∈ l, isLineTerm c = false) {cs : List Char}
    (htry : try1 (l ++ nl :: cs) = none) {f : Nat}
    (hf : l.length + 1 ≤ f) :
    passMF try1 f true (l ++ nl :: cs) =
      l ++ nl :: passMF try1 (f - (l.length + 1)) true cs := by
  cases l with
  | nil => exact absurd rfl hne
  | cons a as =>
    cases f with
    | zero => simp at hf
    | succ f1 =>
      have ha : isLineTerm a = false := hcl a (by simp)
      have hstep : passMF try1 (f1 + 1) true ((a :: as) ++ nl :: cs) =
          a :: passMF try1 f1 (isLineTerm a) (as ++ nl :: cs) := by
        simp [passMF, show try1 (a :: (as ++ nl :: cs)) = none from htry]
      rw [hstep, ha,
        passMF_copy_false as (fun c hc => hcl c (by simp [hc])) f1 (nl :: cs)
          (by simp at hf; omega)]
      have hpos : 1 ≤ f1 - as.length := by simp at hf; omega
      cases hfa : f1 - as.length with
      | zero => omega
      | succ f2 =>
        rw [passMF_copy_step nl cs f2, show isLineTerm nl = true from by decide]
        have harith : f1 + 1 - ((a :: as).length + 1) = f2 := by
          simp only [List.length_cons]
          omega
        rw [harith]
        simp

theorem passMF_nl2 {try1 : List Char → Option (List Char)}
    (h1 : ∀ cs, try1 (nl :: cs) = none)
    (hc : ∀ cs r, try1 cs = some r → r.length < cs.length)
    (X : List Char) {f : Nat} (hf : X.length + 2 ≤ f) :
    passMF try1 f true (nl :: nl :: X) =
      nl :: nl :: passMF try1 X.length true X := by
  cases f with
  | zero => omega
  | succ f0 =>
    rw [passMF_step_nl (h1 _) f0 true]
    cases f0 with
    | zero => omega
    | succ f1 =>
      rw [passMF_step_nl (h1 _) f1 true,
        passMF_fuel hc f1 X.length true X (by omega) (le_refl _)]

theorem passGF_nl2 {try1 : List Char → Option (List Char)}
    {repl : List Char} (h1 : ∀ cs, try1 (nl :: cs) = none)
    (hc : ∀ cs r, try1 cs = some r → r.length < cs.length)
    (X : List Char) {f : Nat} (hf : X.length + 2 ≤ f) :
    passGF try1 repl f (nl :: nl :: X) =
      nl :: nl :: passGF try1 repl X.length X := by
  cases f with
  | zero => omega
  | succ f0 =>
    rw [passGF_step_nl (h1 _) f0]
    cases f0 with
    | zero => omega
    | succ f1 =>
      rw [passGF_step_nl (h1 _) f1,
        passGF_fuel hc f1 X.length X (by omega) (le_refl _)]

theorem tryLineKV_appHeader {n : String}
    (hn : ∀ c ∈ n.data, isLineTerm c = false) (Z : List Char) :
    tryLineKV appKey (appHeaderLine n ++ nl :: Z) = some (nl :: Z) := by
  have he : appHeaderLine n ++ nl :: Z =
      'a' :: 'p' :: 'p' :: ' ' :: '=' :: ' ' :: sq ::
        (n.data ++ sq :: nl :: Z) := by
    simp [appHeaderLine, List.append_assoc]
  have hu : ∀ c ∈ (' ' :: sq :: (n.data ++ [sq]) : List Char),
      isLineTerm c = false := by
    intro c hc
    rcases List.mem_cons.mp hc with rfl | hc2
    · decide
    rcases List.mem_cons.mp hc2 with rfl | hc3
    · decide
    rcases List.mem_append.mp hc3 with hN | hS
    · exact hn c hN
    · rcases List.mem_singleton.mp hS with rfl
      decide
  have hde : dropToEol (' ' :: sq :: (n.data ++ sq :: nl :: Z)) =
      nl :: Z := by
    have he2 : (' ' :: sq :: (n.data ++ sq :: nl :: Z) : List Char) =
        (' ' :: sq :: (n.data ++ [sq])) ++ nl :: Z := by
      simp [List.append_assoc]
    rw [he2]
    exact dropToEol_clean_append hu (by decide) Z
  rw [he]
  unfold tryLineKV
  simp only [show stripPref appKey
      ('a' :: 'p' :: 'p' :: ' ' :: '=' :: ' ' :: sq ::
        (n.data ++ sq :: nl :: Z)) =
      some (' ' :: '=' :: ' ' :: sq :: (n.data ++ sq :: nl :: Z)) from rfl]
  simp only [show dropWs
      (' ' :: '=' :: ' ' :: sq :: (n.data ++ sq :: nl :: Z)) =
      '=' :: (' ' :: sq :: (n.data ++ sq :: nl :: Z)) from rfl]
  simp only [if_true, hde]

theorem tryLineKV_primHeader {r : String}
    (hr : ∀ c ∈ r.data, isLineTerm c = false) (Z : List Char) :
    tryLineKV prKey (primHeaderLine r ++ nl :: Z) = some (nl :: Z) := by
  have he : primHeaderLine r ++ nl :: Z =
      'p' :: 'r' :: 'i' :: 'm' :: 'a' :: 'r' :: 'y' :: '_' :: 'r' :: 'e' ::
      'g' :: 'i' :: 'o' :: 'n' :: ' ' :: '=' :: ' ' :: sq ::
        (r.data ++ sq :: nl :: Z) := by
    simp [primHeaderLine, List.append_assoc]
  have hu : ∀ c ∈ (' ' :: sq :: (r.data ++ [sq]) : List Char),
      isLineTerm c = false := by
    intro c hc
    rcases List.mem_cons.mp hc with rfl | hc2
    · decide
    rcases List.mem_cons.mp hc2 with rfl | hc3
    · decide
    rcases List.mem_append.mp hc3 with hN | hS
    · exact hr c hN
    · rcases List.mem_singleton.mp hS with rfl
      decide
  have hde : dropToEol (' ' :: sq :: (r.data ++ sq :: nl :: Z)) =
      nl :: Z := by
    have he2 : (' ' :: sq :: (r.data ++ sq :: nl :: Z) : List Char) =
        (' ' :: sq :: (r.data ++ [sq])) ++ nl :: Z := by
      simp [List.append_assoc]
    rw [he2]
    exact dropToEol_clean_append hu (by decide) Z
  rw [he]
  unfold tryLineKV
  simp only [show stripPref prKey
      ('p' :: 'r' :: 'i' :: 'm' :: 'a' :: 'r' :: 'y' :: '_' :: 'r' :: 'e' ::
        'g' :: 'i' :: 'o' :: 'n' :: ' ' :: '=' :: ' ' :: sq ::
          (r.data ++ sq :: nl :: Z)) =
      some (' ' :: '=' :: ' ' :: sq :: (r.data ++ sq :: nl :: Z)) from rfl]
  simp only [show dropWs
      (' ' :: '=' :: ' ' :: sq :: (r.data ++ sq :: nl :: Z)) =
      '=' :: (' ' :: sq :: (r.data ++ sq :: nl :: Z)) from rfl]
  simp only [if_true, hde]

theorem tryLineKV_app_at_prim (r : String) (X : List Char) :
    tryLineKV appKey (primHeaderLine r ++ X) = none := by
  unfold tryLineKV
  simp only [show stripPref appKey (primHeaderLine r ++ X) = none from
    stripPref_head_ne (by decide)]

theorem appHeaderLine_ne_nil (n : String) : appHeaderLine n ≠ [] := by
  intro h
  have := congrArg List.length h
  simp [appHeaderLine] at this

theorem primHeaderLine_ne_nil (r : String) : primHeaderLine r ≠ [] := by
  intro h
  have := congrArg List.length h
  simp [primHeaderLine] at this

theorem passApp_header {n r : String}
    (hn : ∀ c ∈ n.data, isLineTerm c = false)
    (hr : ∀ c ∈ r.data, isLineTerm c = false) (R : List Char) :
    passApp (tomlHeader n r ++ R) =
      nl :: (primHeaderLine r ++ nl :: passApp R) := by
  have hdr : tomlHeader n r ++ R =
      appHeaderLine n ++ nl :: (primHeaderLine r ++ nl :: R) := by
    simp [tomlHeader, List.append_assoc]
  have htry : tryLineKV appKey (tomlHeader n r ++ R) =
      some (nl :: (primHeaderLine r ++ nl :: R)) := by
    rw [hdr]
    exact tryLineKV_appHeader hn (primHeaderLine r ++ nl :: R)
  have hne : tomlHeader n r ++ R ≠ [] := by
    intro h0
    have := congrArg List.length h0
    simp [tomlHeader, appHeaderLine] at this
  have hlen : (tomlHeader n r ++ R).length =
      (appHeaderLine n).length + 1 +
        ((primHeaderLine r).length + (1 + R.length)) := by
    rw [hdr]
    simp only [List.length_append, List.length_cons]
    omega
  have hAlen : 1 ≤ (appHeaderLine n).length := by
    simp [appHeaderLine]
  have hPlen : 1 ≤ (primHeaderLine r).length := by
    simp [primHeaderLine]
  show passMF (tryLineKV appKey) (tomlHeader n r ++ R).length true
      (tomlHeader n r ++ R) = _
  cases hflen : (tomlHeader n r ++ R).length with
  | zero => omega
  | succ f0 =>
    rw [passMF_match_step hne htry f0]
    cases f0 with
    | zero => omega
    | succ f1 =>
      rw [passMF_copy_step nl (primHeaderLine r ++ nl :: R) f1,
        show isLineTerm nl = true from by decide]
      rw [passMF_copyline_true (primHeaderLine_ne_nil r)
        (primHeaderLine_clean hr) (tryLineKV_app_at_prim r (nl :: R))
        (by omega)]
      rw [passMF_fuel hcTryApp (f1 - ((primHeaderLine r).length + 1))
        R.length true R (by omega) (le_refl _)]
      rfl

theorem passPrim_step {r : String}
    (hr : ∀ c ∈ r.data, isLineTerm c = false) (X : List Char) :
    passPrim (nl :: (primHeaderLine r ++ nl :: X)) =
      nl :: nl :: passPrim X := by
  have htry : tryLineKV prKey (primHeaderLine r ++ nl :: X) =
      some (nl :: X) := tryLineKV_primHeader hr X
  have hlen : (nl :: (primHeaderLine r ++ nl :: X)).length =
      (primHeaderLine r).length + 2 + X.length := by
    simp only [List.length_cons, List.length_append]
    omega
  have hPlen : 1 ≤ (primHeaderLine r).length := by
    simp [primHeaderLine]
  show passMF (tryLineKV prKey)
      (nl :: (primHeaderLine r ++ nl :: X)).length true
      (nl :: (primHeaderLine r ++ nl :: X)) = _
  cases hflen : (nl :: (primHeaderLine r ++ nl :: X)).length with
  | zero => omega
  | succ f0 =>
    rw [passMF_step_nl (tryLineKV_pr_nl _) f0 true]
    cases f0 with
    | zero => omega
    | succ f1 =>
      have hne : primHeaderLine r ++ nl :: X ≠ [] := by
        intro h0
        have := congrArg List.length h0
        simp at this
      rw [passMF_match_step hne htry f1]
      cases f1 with
      | zero => omega
      | succ f2 =>
        rw [passMF_copy_step nl X f2,
          show isLineTerm nl = true from by decide]
        rw [passMF_fuel hcTryPr f2 X.length true X (by omega) (le_refl _)]
        rfl

theorem passApp_nl2 (X : List Char) :
    passApp (nl :: nl :: X) = nl :: nl :: passApp X := by
  show passMF (tryLineKV appKey) (nl :: nl :: X).length true
      (nl :: nl :: X) = _
  simp only [List.length_cons]
  exact passMF_nl2 tryLineKV_app_nl hcTryApp X (by omega)

theorem passPrim_nl2 (X : List Char) :
    passPrim (nl :: nl :: X) = nl :: nl :: passPrim X := by
  show passMF (tryLineKV prKey) (nl :: nl :: X).length true
      (nl :: nl :: X) = _
  simp only [List.length_cons]
  exact passMF_nl2 tryLineKV_pr_nl hcTryPr X (by omega)

theorem passChecks_nl2 (q : Char) (X : List Char) :
    passChecks q (nl :: nl :: X) = nl :: nl :: passChecks q X := by
  show passMF (tryChecks q) (nl :: nl :: X).length true (nl :: nl :: X) = _
  simp only [List.length_cons]
  exact passMF_nl2 (tryChecks_nl q) (hcTryChecks q) X (by omega)

theorem passAsm_nl2 (X : List Char) :
    passAsm (nl :: nl :: X) = nl :: nl :: passAsm X := by
  show passGF (tryFlag asmKey "true".data) asmRepl (nl :: nl :: X).length
      (nl :: nl :: X) = _
  simp only [List.length_cons]
  exact passGF_nl2 tryFlag_asm_nl hcTryAsm X (by omega)

theorem passMin_nl2 (X : List Char) :
    passMin (nl :: nl :: X) = nl :: nl :: passMin X := by
  show passGF (tryFlag minKey "0".data) minRepl (nl :: nl :: X).length
      (nl :: nl :: X) = _
  simp only [List.length_cons]
  exact passGF_nl2 tryFlag_min_nl hcTryMin X (by omega)

theorem rewriteBody_header (n r : String)
    (hn : ∀ c ∈ n.data, isLineTerm c = false)
    (hr : ∀ c ∈ r.data, isLineTerm c = false) (R : List Char) :
    rewriteBody (tomlHeader n r ++ R) = nl :: nl :: rewriteBody R := by
  unfold rewriteBody
  rw [passApp_header hn hr R, passPrim_step hr (passApp R),
    passChecks_nl2 dq _, passChecks_nl2 sq _, passAsm_nl2 _, passMin_nl2 _]

theorem rewriteBody_nl2 (X : List Char) :
    rewriteBody (nl :: nl :: X) = nl :: nl :: rewriteBody X := by
  unfold rewriteBody
  rw [passApp_nl2 X, passPrim_nl2 _, passChecks_nl2 dq _,
    passChecks_nl2 sq _, passAsm_nl2 _, passMin_nl2 _]


/-! ## Lemmas about the run model -/

theorem dmBind_snd {α β : Type} (x : DM α) (f : α → DM β) :
    (dmBind x f).2 =
      match x.2 with
      | .error e => .error e
      | .ok a => (f a).2 := by
  rcases x with ⟨l, exc⟩
  cases exc <;> rfl

theorem dmBind_fst {α β : Type} (x : DM α) (f : α → DM β) :
    (dmBind x f).1 =
      x.1 ++ (match x.2 with
              | .error _ => []
              | .ok a => (f a).1) := by
  rcases x with ⟨l, exc⟩
  cases exc <;> simp [dmBind]

theorem evsOf_nil : evsOf [] = [] := rfl

theorem evsOf_append (a b : List Emit) :
    evsOf (a ++ b) = evsOf a ++ evsOf b := by
  simp [evsOf, List.filterMap_append]

theorem evsOf_cons_ev (e : Event) (l : List Emit) :
    evsOf (.ev e :: l) = e :: evsOf l := rfl

theorem evsOf_cons_act (a : Action) (l : List Emit) :
    evsOf (.act a :: l) = evsOf l := rfl

theorem evsOf_map_ev {α : Type} (g : α → Event) (l : List α) :
    evsOf (l.map (fun x => Emit.ev (g x))) = l.map g := by
  induction l with
  | nil => rfl
  | cons x xs ih => simp [List.map_cons, evsOf_cons_ev, ih]

theorem actsOf_nil : actsOf [] = [] := rfl

theorem actsOf_append (a b : List Emit) :
    actsOf (a ++ b) = actsOf a ++ actsOf b := by
  simp [actsOf, List.filterMap_append]

theorem actsOf_cons_ev (e : Event) (l : List Emit) :
    actsOf (.ev e :: l) = actsOf l := rfl

theorem actsOf_cons_act (a : Action) (l : List Emit) :
    actsOf (.act a :: l) = a :: actsOf l := rfl

theorem actsOf_map_ev {α : Type} (g : α → Event) (l : List α) :
    actsOf (l.map (fun x => Emit.ev (g x))) = [] := by
  induction l with
  | nil => rfl
  | cons x xs ih => simp [List.map_cons, actsOf_cons_ev, ih]

theorem stDockerfile_snd (req : DeployRequest) :
    (stDockerfile req).2 = .ok () := rfl

theorem stFiles_snd (env : ProcEnv) (req : DeployRequest) :
    (stFiles env req).2 = .ok () := rfl

theorem evsOf_stDockerfile (req : DeployRequest) :
    evsOf (stDockerfile req).1 = [] := by
  unfold stDockerfile
  cases req.dockerfile with
  | none => rfl
  | some d =>
    by_cases hd : (strTrim d).data.isEmpty <;> simp [hd, evsOf]

theorem evsOf_stFiles (env : ProcEnv) (req : DeployRequest) :
    evsOf (stFiles env req).1 =
      req.files.map (fun f => mkEv env ("Generated " ++ f.1) .info) := by
  unfold stFiles
  induction req.files with
  | nil => rfl
  | cons f fs ih =>
    simp only [List.map_cons, List.flatten_cons, List.cons_append,
      List.nil_append, evsOf_cons_act, evsOf_cons_ev] at *
    rw [ih]

theorem getLast?_app {α : Type} (xs : List α) (a : α) :
    (xs ++ [a]).getLast? = some a := List.getLast?_concat xs

theorem dropLast_app {α : Type} (xs : List α) (a : α) :
    (xs ++ [a]).dropLast = xs := List.dropLast_concat

/-! ## Claim theorems -/

/-- **C10.** The workspace cleanup deletes a directory only when the
directory string starts with the workspace root `TEMP_DIR`; a directory
that does not start with that root — including `path.join(TEMP_DIR,
sessionId)` for a traversal session id such as `../../etc/passwd`, which
Node normalizes to `/etc/passwd` — is never deleted. -/
theorem cleanup_deletes_only_under_temp_dir :
    (∀ tempDir dir : String, cleanupDeletes tempDir dir = true →
      strStartsWith dir tempDir = true) ∧
    (∀ tempDir dir : String, strStartsWith dir tempDir = false →
      cleanupDeletes tempDir dir = false) ∧
    pathJoin "/tmp/fly_deployer_workspaces" "../../etc/passwd" =
      "/etc/passwd" ∧
    cleanupDeletes "/tmp/fly_deployer_workspaces"
      (pathJoin "/tmp/fly_deployer_workspaces" "../../etc/passwd")
      = false := by
  refine ⟨?_, ?_, by decide, by decide⟩
  · intro tempDir dir h
    simp only [cleanupDeletes, Bool.and_eq_true] at h
    exact h.2
  · intro tempDir dir h
    simp [cleanupDeletes, h]

/-- Witness for `cleanup_deletes_only_under_temp_dir`: a concrete directory
outside the workspace root is not deleted. -/
theorem cleanup_deletes_only_under_temp_dir_witness :
    cleanupDeletes "/tmp/fly_deployer_workspaces" "/etc/passwd" = false :=
  cleanup_deletes_only_under_temp_dir.2.1 "/tmp/fly_deployer_workspaces"
    "/etc/passwd" (by decide)

/-- **C8.** Two concurrent first-time callers of `getFlyExe` (no cached
path, no in-flight promise) trigger exactly one installation attempt and
receive the same in-flight promise, which resolves to one shared cached
path; and once a path is cached and still present, a call returns it
directly without touching the installation machinery. -/
theorem getFlyExe_single_install_shared_promise :
    (∀ ex : String → Bool,
      (getFlyExe ex (getFlyExe ex initialInstallerState).1).1.installCount
        = 1 ∧
      (getFlyExe ex initialInstallerState).2 = AcquireResult.awaiting 0 ∧
      (getFlyExe ex (getFlyExe ex initialInstallerState).1).2 =
        AcquireResult.awaiting 0 ∧
      (∀ p : String,
        (resolveInstall
          (getFlyExe ex (getFlyExe ex initialInstallerState).1).1
          p).flyBinPath = some p)) ∧
    (∀ (ex : String → Bool) (s : InstallerState) (p : String),
      s.flyBinPath = some p → ex p = true →
      getFlyExe ex s = (s, AcquireResult.resolved p)) := by
  constructor
  · intro ex
    exact ⟨rfl, rfl, rfl, fun p => rfl⟩
  · intro ex s p h1 h2
    simp [getFlyExe, h1, h2]

/-- Witness for `getFlyExe_single_install_shared_promise`: a call with a
cached, still-existing path returns it unchanged. -/
theorem getFlyExe_single_install_shared_promise_witness :
    getFlyExe (fun _ => true)
        ⟨some "/home/fly/.fly/bin/flyctl", none, 1, 1⟩ =
      (⟨some "/home/fly/.fly/bin/flyctl", none, 1, 1⟩,
       AcquireResult.resolved "/home/fly/.fly/bin/flyctl") :=
  getFlyExe_single_install_shared_promise.2 (fun _ => true) _ _ rfl rfl

/-- **C6 (counterexample).** `hiddenAppManifest` (`checks = 'a'app = x`)
has no application-identifier line, yet normalizing it yields *two* such
lines: the single-quoted `checks = '…'` deletion pass runs after the
app-line deletion pass and, by deleting up to the last quote of the line
only, exposes a fresh `app = x` at a line start, which survives next to
the injected header. -/
theorem normalizeToml_app_line_counterexample :
    countAppLines hiddenAppManifest = 0 ∧
    countAppLines (normalizeToml "myapp" "iad" hiddenAppManifest) = 2 := by
  decide

/-- **C6 (amended).** For a validated app name, a region free of line
terminators, and a manifest in which no line opens with the literal
`checks` (deleting a `checks` assignment can expose a new app line — even
across a line break, since `\s` in the pattern matches newlines) and no
line mentions `auto_stop_machines` or `min_machines_running` (whose
global rewrites can merge lines, again because `\s` crosses line breaks),
deploy-time normalization leaves exactly one application-identifier
line — the injected header `app = '<name>'`. -/
theorem normalizeToml_single_app_line (appName region t : String)
    (hn : validAppName appName = true)
    (hr : ∀ c ∈ region.data, isLineTerm c = false)
    (hck : ∀ l ∈ splitLines t.data, ckKey.isPrefixOf l = false)
    (hasm : ∀ l ∈ splitLines t.data, containsSeq asmKey l = false)
    (hmin : ∀ l ∈ splitLines t.data, containsSeq minKey l = false) :
    (splitLines (normalizeToml appName region t).data).filter
      (lineAssign appKey) = [appHeaderLine appName] := by
  rw [splitLines_normalizeToml appName region t hn hr]
  rw [List.filter_cons_of_pos (by exact lineAssign_appHeader appName),
    List.filter_cons_of_neg (by
      intro hq
      exact Bool.false_ne_true
        ((lineAssign_app_primHeader region).symm.trans hq))]
  rw [List.filter_eq_nil_iff.mpr (by
    intro a ha hq
    exact Bool.false_ne_true
      ((rewriteBody_lines t.data hck hasm hmin a ha).symm.trans hq))]

/-- Witness for `normalizeToml_single_app_line` at a concrete manifest. -/
theorem normalizeToml_single_app_line_witness :
    (splitLines (normalizeToml "myapp" "iad" "port = 80").data).filter
      (lineAssign appKey) = [appHeaderLine "myapp"] :=
  normalizeToml_single_app_line "myapp" "iad" "port = 80"
    (by decide) (by decide) (by decide) (by decide) (by decide)

/-- **C5 (counterexample).** Deploy-time manifest normalization is not
idempotent, already at the empty manifest: the second application deletes
the two header lines injected by the first (keeping their newlines) and
prepends a fresh header, so the texts differ. -/
theorem normalizeToml_idempotence_fails :
    normalizeToml "a" "b" (normalizeToml "a" "b" "") ≠
      normalizeToml "a" "b" "" := by decide

/-- **C5 (amended).** For every validated app name, every region free of
line terminators and *every* manifest, deploy-time normalization is not
idempotent: the second application deletes the injected `app` and
`primary_region` header lines down to their newlines, so
`rewriteBody (header ++ R) = '\n' :: '\n' :: rewriteBody R`; an
idempotence fixed point would force `R = '\n' :: '\n' :: rewriteBody R`
and iterating this equation shrinks `R` by two characters at every step —
an infinite descent. -/
theorem normalizeToml_never_idempotent (appName region t : String)
    (hn : validAppName appName = true)
    (hr : ∀ c ∈ region.data, isLineTerm c = false) :
    normalizeToml appName region (normalizeToml appName region t) ≠
      normalizeToml appName region t := by
  intro heq
  have hnc : ∀ c ∈ appName.data, isLineTerm c = false := by
    have h2 := ((Bool.and_eq_true _ _).mp hn).2
    exact fun c hc => isNameChar_not_term (List.all_eq_true.mp h2 c hc)
  have hdat : tomlHeader appName region ++
      rewriteBody (normalizeToml appName region t).data =
      tomlHeader appName region ++ rewriteBody t.data :=
    congrArg String.data heq
  have hbody : rewriteBody (normalizeToml appName region t).data =
      rewriteBody t.data := List.append_cancel_left hdat
  have hE0 : rewriteBody t.data =
      nl :: nl :: rewriteBody (rewriteBody t.data) := by
    conv_lhs => rw [← hbody]
    have h1 : rewriteBody (normalizeToml appName region t).data =
        nl :: nl :: rewriteBody (rewriteBody t.data) := by
      show rewriteBody (tomlHeader appName region ++ rewriteBody t.data) = _
      exact rewriteBody_header appName region hnc hr (rewriteBody t.data)
    rw [h1]
  have hstep : ∀ X : List Char, X = nl :: nl :: rewriteBody X →
      rewriteBody X = nl :: nl :: rewriteBody (rewriteBody X) := by
    intro X hX
    calc rewriteBody X = rewriteBody (nl :: nl :: rewriteBody X) := by
          rw [← hX]
      _ = nl :: nl :: rewriteBody (rewriteBody X) := rewriteBody_nl2 _
  have hiter : ∀ k : Nat, rewriteBody^[k] (rewriteBody t.data) =
      nl :: nl :: rewriteBody (rewriteBody^[k] (rewriteBody t.data)) := by
    intro k
    induction k with
    | zero => simpa using hE0
    | succ k ih =>
      rw [Function.iterate_succ_apply']
      exact hstep _ ih
  have hlen : ∀ k : Nat, (rewriteBody t.data).length =
      (rewriteBody^[k] (rewriteBody t.data)).length + 2 * k := by
    intro k
    induction k with
    | zero => simp
    | succ k ih =>
      have h2 := congrArg List.length (hiter k)
      rw [Function.iterate_succ_apply']
      simp only [List.length_cons] at h2
      omega
  have hzero : (rewriteBody t.data).length = 0 := by
    have hk := hlen (rewriteBody t.data).length
    omega
  have hRnil : rewriteBody t.data = [] := List.length_eq_zero.mp hzero
  rw [hRnil] at hE0
  exact absurd hE0 (by simp)

/-- Witness for `normalizeToml_never_idempotent` at a concrete name,
region and manifest. -/
theorem normalizeToml_never_idempotent_witness :
    normalizeToml "test-app" "iad"
        (normalizeToml "test-app" "iad" "port = 80") ≠
      normalizeToml "test-app" "iad" "port = 80" :=
  normalizeToml_never_idempotent "test-app" "iad" "port = 80"
    (by decide) (by decide)


/-- **C4.** Every run that passes boundary validation (and so reaches the
orchestration `try`/`finally`) has its session workspace directory deleted
by the `finally` cleanup — the result's `deleted` field does not depend on
the world at all, so this holds on the success path and on every error
path, including exceptions thrown mid-sequence — provided the joined
workspace path satisfies the cleanup guard (non-empty and under the
workspace root), which holds for every traversal-free session id. -/
theorem workspace_always_cleaned (env : ProcEnv) (req : DeployRequest)
    (w : DeployWorld) (tempDir : String)
    (hu : validRepoUrl req.repoUrl = true)
    (ha : validAppName req.appName = true)
    (hne : (pathJoin tempDir req.sessionId).data ≠ [])
    (hpre : strStartsWith (pathJoin tempDir req.sessionId) tempDir = true) :
    (deployApp env req w tempDir).deleted =
      some (pathJoin tempDir req.sessionId) := by
  have hcl : cleanupDeletes tempDir (pathJoin tempDir req.sessionId)
      = true := by
    simp [cleanupDeletes, hpre, List.isEmpty_iff, hne]
  unfold deployApp
  rw [hu, ha]
  simp only [Bool.not_true, Bool.false_eq_true, if_false, hcl, if_true]

/-- Witness for `workspace_always_cleaned`: a concrete run whose build
subprocess fails still deletes the workspace. -/
theorem workspace_always_cleaned_witness :
    (deployApp ⟨none, none⟩ okReq
        { okWorld with deployRes := .error "build failed" }
        "/tmp/fly_deployer_workspaces").deleted =
      some (pathJoin "/tmp/fly_deployer_workspaces" "abc123") :=
  workspace_always_cleaned _ _ _ _ (by decide) (by decide) (by decide)
    (by decide)

/-- **C2 (code_bug).** `sanitizeLog` redacts only the value of the process
environment variable `FLY_API_TOKEN` (and, despite guarding on it, never
redacts `OPENAI_API_KEY`); the request-supplied platform token is unknown
to it.  Concretely: with no environment tokens set, a deploy-subprocess
output line echoing the request's `flyToken` is streamed to the client
verbatim, so an emitted event message contains the secret value. -/
theorem deploy_event_leaks_request_token :
    (deployApp ⟨none, none⟩ okReq leakWorld
        "/tmp/fly_deployer_workspaces").events.any
      (fun e => strIncludes e.message okReq.flyToken) = true := by decide

/-- **C3 (counterexample).** A registration failure whose output
(`Network unreachable`) mentions neither `taken` nor `exists`: the claim
predicts a fatal abort, but the code swallows the error — the concrete run
emits no error-category event and ends in the success terminal. -/
theorem registration_other_error_does_not_abort :
    (deployApp ⟨none, none⟩ okReq regFailWorld
        "/tmp/fly_deployer_workspaces").events.getLast? =
      some (successEvent (some "test-app.fly.dev") "test-app") ∧
    (deployApp ⟨none, none⟩ okReq regFailWorld
        "/tmp/fly_deployer_workspaces").events.all
      (fun e => !(e.etype == EType.error)) = true := by decide

/-- **C3 (amended).** Registration failure is never fatal.  For any run
whose surrounding stages succeed but whose `apps create` fails with
combined output `m`, the run still ends in the success terminal event, and
the `App exists, updating...` warning is emitted iff `m` mentions `taken`
or `exists`; any other registration failure is silently swallowed and the
run continues unchanged. -/
theorem registration_failure_never_fatal (env : ProcEnv)
    (req : DeployRequest) (w : DeployWorld) (tempDir m hn nm p : String)
    (hurl : validRepoUrl req.repoUrl = true)
    (hname : validAppName req.appName = true)
    (hexe : w.flyExe = Except.ok p)
    (hcred : w.credsOk = true) (hprep : w.prepReused = true)
    (hpref : req.preferExistingConfig = false)
    (hpol : w.policyErr = none) (hdock : w.policyDockerCopiesConfig = false)
    (hreg : w.reg = Except.error m)
    (hvol : w.volName = none) (hsec : req.secrets = [])
    (hdep : w.deployRes = Except.ok ())
    (hstat : w.statusRes = Except.ok (some hn, nm))
    (hhealth : w.health 0 = some 200) :
    (deployApp env req w tempDir).events.getLast? =
      some (successEvent (some hn) nm) ∧
    ((mkEv env "App exists, updating..." EType.warning) ∈
        (deployApp env req w tempDir).events ↔
      containsTakenOrExists m = true) := by
  have h200 : isOkStatus 200 = true := by decide
  have houtcome : (tryBody env req w).2 = .ok (some hn, nm) := by
    simp only [tryBody, dmBind_snd, dmRet, stGetExe, stCreds, stPrep,
      stWriteConfig, stDockerfile_snd, stFiles_snd, stDockerignore,
      stPolicy, stRegister, stVolumes, stSecrets, stDeploy, stStatus,
      stHealth, hexe, hcred, hprep, hpol, hreg, hvol, hdep, hstat, hpref,
      if_true, Bool.false_eq_true, if_false]
  have hevs : (deployApp env req w tempDir).events =
      evsOf (tryBody env req w).1 ++ [successEvent (some hn) nm] := by
    unfold deployApp
    rw [hurl, hname]
    simp only [Bool.not_true, Bool.false_eq_true, if_false, houtcome]
  have hlist : evsOf (tryBody env req w).1 =
      [mkEv env "🕵️ Verifying credentials..." .info,
       mkEv env "Writing config..." .info] ++
      req.files.map (fun f => mkEv env ("Generated " ++ f.1) .info) ++
      [mkEv env "🛡️ Sanitizing Build Context..." .info] ++
      (w.policyYaml.filter (fun q => q.2)).map
        (fun q => mkEv env
          ("🛡️ Policy: Patching DNS schema in " ++ q.1 ++ "...") .info) ++
      [mkEv env "Registering app..." .info] ++
      w.regChunks.map (fun c => mkEv env ("[Reg] " ++ strTrim c) .log) ++
      (if containsTakenOrExists m then
         [mkEv env "App exists, updating..." .warning] else []) ++
      [mkEv env "Deploying..." .log] ++
      ((w.deployChunks.map strTrim).filter
        (fun l => !l.data.isEmpty)).map (fun l => mkEv env l .log) ++
      [mkEv env ("💓 Verifying deployment health at " ++
         healthUrl req hn ++ "...") .info,
       mkEv env ("✅ Health check passed (" ++ toString (200 : Nat) ++ ")")
         .success] := by
    simp only [tryBody, dmBind_fst, dmBind_snd, dmRet, stGetExe, stCreds,
      stPrep, stWriteConfig, stDockerfile_snd, stFiles_snd, stDockerignore,
      stPolicy, policyEvents, stRegister, stVolumes, stSecrets, stDeploy,
      stStatus, stHealth, healthAttempts,
      hexe, hcred, hprep, hpol, hdock, hreg, hvol, hsec, hdep, hstat,
      hhealth, hpref, h200, if_true, Bool.false_eq_true, Bool.not_false,
      if_false, List.isEmpty_nil, List.append_nil, List.nil_append]
    simp only [evsOf_append, evsOf_cons_ev, evsOf_cons_act, evsOf_nil,
      evsOf_stDockerfile, evsOf_stFiles, evsOf_map_ev, List.append_nil,
      List.nil_append]
    rcases hc : containsTakenOrExists m with _ | _ <;>
      simp [hc, evsOf_nil, evsOf_cons_ev, List.append_assoc]
  constructor
  · rw [hevs]
    exact getLast?_app _ _
  · rw [hevs, hlist]
    by_cases hc : containsTakenOrExists m = true
    · simp only [hc, if_true, iff_true]
      simp [List.mem_append]
    · have hc2 : containsTakenOrExists m = false := by
        revert hc; cases containsTakenOrExists m <;> simp
      simp only [hc2, Bool.false_eq_true, if_false, iff_false,
        List.append_nil, List.nil_append]
      intro hmem
      simp only [List.mem_append, List.mem_cons, List.mem_map,
        List.not_mem_nil, List.mem_singleton, or_false, false_or] at hmem
      simp [mkEv, Event.mk.injEq, successEvent] at hmem

/-- Witness for `registration_failure_never_fatal` at a concrete run whose
registration fails with a name-taken message. -/
theorem registration_failure_never_fatal_witness :
    (deployApp ⟨none, none⟩ okReq
        { okWorld with reg := .error "name already taken" }
        "/tmp/fly_deployer_workspaces").events.getLast? =
      some (successEvent (some "test-app.fly.dev") "test-app") ∧
    ((mkEv ⟨none, none⟩ "App exists, updating..." EType.warning) ∈
        (deployApp ⟨none, none⟩ okReq
          { okWorld with reg := .error "name already taken" }
          "/tmp/fly_deployer_workspaces").events ↔
      containsTakenOrExists "name already taken" = true) :=
  registration_failure_never_fatal ⟨none, none⟩ okReq
    { okWorld with reg := .error "name already taken" }
    "/tmp/fly_deployer_workspaces" "name already taken" "test-app.fly.dev"
    "test-app" "/home/fly/.fly/bin/flyctl" (by decide) (by decide) rfl rfl
    rfl rfl rfl rfl rfl rfl rfl rfl rfl rfl

theorem healthAttempts_types (env : ProcEnv) (h : Nat → Option Nat) :
    ∀ (fuel i : Nat), ∀ x ∈ (healthAttempts env h i fuel).1,
      ∃ msg ty, x = Emit.ev (mkEv env msg ty) ∧
        (ty = EType.success ∨ ty = EType.log) := by
  intro fuel
  induction fuel with
  | zero => intro i x hx; simp [healthAttempts] at hx
  | succ f ih =>
    intro i x hx
    cases hhi : h i with
    | some st =>
      by_cases hok : isOkStatus st
      · simp only [healthAttempts, hhi, hok, if_true,
          List.mem_singleton] at hx
        exact ⟨_, _, hx, Or.inl rfl⟩
      · simp only [healthAttempts, hhi, hok, Bool.false_eq_true, if_false,
          List.mem_cons] at hx
        rcases hx with rfl | hx
        · exact ⟨_, _, rfl, Or.inr rfl⟩
        · exact ih (i + 1) x hx
    | none =>
      simp only [healthAttempts, hhi, List.mem_cons] at hx
      rcases hx with rfl | hx
      · exact ⟨_, _, rfl, Or.inr rfl⟩
      · exact ih (i + 1) x hx

/-- **C7 (counterexample).** A `404` (not-found) response — and likewise a
`302` — never counts as healthy: the probe loop runs all five attempts and
reports no healthy result, while the claim says such a status counts as
healthy and stops the loop. -/
theorem health_non_2xx_not_healthy :
    (healthAttempts ⟨none, none⟩ (fun _ => some 404) 0 5).2 = false ∧
    (healthAttempts ⟨none, none⟩ (fun _ => some 404) 0 5).1.length = 5 ∧
    (healthAttempts ⟨none, none⟩ (fun _ => some 302) 0 5).2 = false := by
  decide

/-- **C7 (amended).** Health verification performs at most five probe
attempts (the source instantiates the loop bound `fuel` with 5) with a
fixed delay between them; an attempt is healthy iff its status is in the
200–299 range (`Response.ok`), and the first healthy attempt stops the
loop; health verification never fails the run (its outcome is always
`ok`), and the exhausted-without-healthy warning is emitted iff no attempt
was healthy. -/
theorem health_check_semantics :
    (∀ (env : ProcEnv) (h : Nat → Option Nat) (i fuel : Nat),
      (healthAttempts env h i fuel).1.length ≤ fuel) ∧
    (∀ (env : ProcEnv) (h : Nat → Option Nat) (i fuel : Nat),
      ((healthAttempts env h i fuel).2 = true ↔
        ∃ j, j < fuel ∧ ∃ st, h (i + j) = some st ∧ isOkStatus st = true)) ∧
    (∀ (env : ProcEnv) (req : DeployRequest) (w : DeployWorld)
        (hostname : Option String),
      (stHealth env req w hostname).2 = Except.ok ()) ∧
    (∀ (env : ProcEnv) (req : DeployRequest) (w : DeployWorld)
        (hn : String),
      (Emit.ev (mkEv env ("⚠️ App deployed, but health check failed at " ++
          healthUrl req hn ++ ".") EType.warning) ∈
          (stHealth env req w (some hn)).1 ↔
        (healthAttempts env w.health 0 5).2 = false)) := by
  refine ⟨?_, ?_, ?_, ?_⟩
  · intro env h i fuel
    induction fuel generalizing i with
    | zero => simp [healthAttempts]
    | succ f ih =>
      cases hhi : h i with
      | some st =>
        by_cases hok : isOkStatus st
        · simp [healthAttempts, hhi, hok]
        · simp only [healthAttempts, hhi, hok, Bool.false_eq_true,
            if_false, List.length_cons]
          have := ih (i + 1)
          omega
      | none =>
        simp only [healthAttempts, hhi, List.length_cons]
        have := ih (i + 1)
        omega
  · intro env h i fuel
    induction fuel generalizing i with
    | zero => simp [healthAttempts]
    | succ f ih =>
      cases hhi : h i with
      | some st =>
        by_cases hok : isOkStatus st
        · simp only [healthAttempts, hhi, hok, if_true, true_iff]
          exact ⟨0, by omega, st, by simpa using hhi, hok⟩
        · simp only [healthAttempts, hhi, hok, Bool.false_eq_true,
            if_false, ih (i + 1)]
          constructor
          · rintro ⟨j, hj, st2, hst2, hok2⟩
            refine ⟨j + 1, by omega, st2, ?_, hok2⟩
            rw [show i + (j + 1) = i + 1 + j by omega]
            exact hst2
          · rintro ⟨j, hj, st2, hst2, hok2⟩
            cases j with
            | zero =>
              exfalso
              simp only [Nat.add_zero] at hst2
              rw [hhi] at hst2
              cases hst2
              exact hok (by simpa using hok2)
            | succ j2 =>
              refine ⟨j2, by omega, st2, ?_, hok2⟩
              rw [show i + 1 + j2 = i + (j2 + 1) by omega]
              exact hst2
      | none =>
        simp only [healthAttempts, hhi, ih (i + 1)]
        constructor
        · rintro ⟨j, hj, st2, hst2, hok2⟩
          refine ⟨j + 1, by omega, st2, ?_, hok2⟩
          rw [show i + (j + 1) = i + 1 + j by omega]
          exact hst2
        · rintro ⟨j, hj, st2, hst2, hok2⟩
          cases j with
          | zero =>
            exfalso
            simp only [Nat.add_zero] at hst2
            rw [hhi] at hst2
            cases hst2
          | succ j2 =>
            refine ⟨j2, by omega, st2, ?_, hok2⟩
            rw [show i + 1 + j2 = i + (j2 + 1) by omega]
            exact hst2
  · intro env req w hostname
    cases hostname <;> rfl
  · intro env req w hn
    simp only [stHealth]
    by_cases hh : (healthAttempts env w.health 0 5).2
    · simp only [hh, if_true, List.append_nil]
      constructor
      · intro hmem
        exfalso
        rcases List.mem_cons.mp hmem with heq | hmem2
        · have hinj : mkEv env ("⚠️ App deployed, but health check failed at "
              ++ healthUrl req hn ++ ".") EType.warning =
              mkEv env ("💓 Verifying deployment health at " ++
                healthUrl req hn ++ "...") EType.info := by
            injection heq
          have := congrArg Event.etype hinj
          simp [mkEv] at this
        · rcases healthAttempts_types env w.health 5 0 _ hmem2
            with ⟨msg, ty, heq2, hty⟩
          have hinj : mkEv env ("⚠️ App deployed, but health check failed at "
              ++ healthUrl req hn ++ ".") EType.warning =
              mkEv env msg ty := by
            injection heq2
          have hty2 := congrArg Event.etype hinj
          simp only [mkEv] at hty2
          rcases hty with rfl | rfl <;> simp at hty2
      · intro hfalse
        simp at hfalse
    · have hh2 : (healthAttempts env w.health 0 5).2 = false := by
        revert hh; cases (healthAttempts env w.health 0 5).2 <;> simp
      simp [hh2, List.mem_append]

/-- **C9 (counterexample).** The analyze-time AI strategy short-circuits
although no `fly.toml` was read: a `package.json` whose content embeds the
text `fly.toml:` after enough padding that it survives `c.slice(12000)`
satisfies the `context.includes("fly.toml:")` test. -/
theorem aiShortCircuit_without_flyToml :
    aiShortCircuits aiHiddenReads true = true ∧
    aiHiddenReads "fly.toml" = none := by
  have e1 : aiHiddenReads "package.json" =
      some (List.replicate 11985 ' ' ++ "fly.toml:".data) := by
    unfold aiHiddenReads; rw [if_pos rfl]
  have e2 : aiHiddenReads "fly.toml" = none := by
    unfold aiHiddenReads; rw [if_neg (by decide)]
  have e3 : aiHiddenReads "Dockerfile" = none := by
    unfold aiHiddenReads; rw [if_neg (by decide)]
  have e4 : aiHiddenReads "requirements.txt" = none := by
    unfold aiHiddenReads; rw [if_neg (by decide)]
  have e5 : aiHiddenReads "go.mod" = none := by
    unfold aiHiddenReads; rw [if_neg (by decide)]
  have e6 : aiHiddenReads "prisma/schema.prisma" = none := by
    unfold aiHiddenReads; rw [if_neg (by decide)]
  have e7 : aiHiddenReads "config.yml" = none := by
    unfold aiHiddenReads; rw [if_neg (by decide)]
  refine ⟨?_, e2⟩
  unfold aiShortCircuits aiContext
  simp only [aiContextFiles, List.foldl_cons, List.foldl_nil, e1, e2, e3,
    e4, e5, e6, e7, List.nil_append]
  have h1 : (':' :: nl ::
      (List.replicate 11985 ' ' ++ "fly.toml:".data)) =
      ((':' :: nl :: List.replicate 11985 ' ') ++ "fly.toml:".data) := rfl
  rw [h1, ← List.append_assoc]
  have hlen : ((nl :: "package.json".data) ++
      (':' :: nl :: List.replicate 11985 ' ')).length = 12000 := by
    rw [List.length_append]
    have h12 : (nl :: "package.json".data).length = 13 := by decide
    have h13 : (':' :: nl :: List.replicate 11985 ' ').length = 11987 := by
      rw [List.length_cons, List.length_cons, List.length_replicate]
    omega
  rw [← hlen, List.drop_left]
  decide

/-- **C9 (amended).** First half as claimed: with the prefer-existing flag
set and no readable `fly.toml`, the run throws `Missing fly.toml` right
after the `Writing config...` event — before the manifest write, app
registration, provisioning, secrets and deploy (the only performed action
is the credential check) — and the stream ends with the corresponding
terminal error event.  Second half corrected: the AI strategy
short-circuits iff the prefer flag is set *and* the substring `fly.toml:`
occurs in the assembled context, which (because the context keeps only the
characters after index 12000 of the concatenation) neither requires nor is
guaranteed by an actual fly.toml read. -/
theorem missing_toml_aborts_and_ai_shortcircuit_iff :
    (∀ (env : ProcEnv) (req : DeployRequest) (w : DeployWorld)
        (tempDir p : String),
      validRepoUrl req.repoUrl = true → validAppName req.appName = true →
      req.preferExistingConfig = true → w.existingToml = none →
      w.flyExe = Except.ok p → w.credsOk = true → w.prepReused = true →
      (tryBody env req w).2 = Except.error "Missing fly.toml" ∧
      actsOf (tryBody env req w).1 = [Action.credCheck] ∧
      (deployApp env req w tempDir).events.getLast? =
        some (mkEv env ("Error: " ++ sanitizeLog env "Missing fly.toml")
          EType.error)) ∧
    (∀ (reads : String → Option (List Char)) (prefer : Bool),
      aiShortCircuits reads prefer = true ↔
        (prefer = true ∧
          containsSeq "fly.toml:".data (aiContext reads) = true)) := by
  constructor
  · intro env req w tempDir p hurl hname hpref hex hexe hcred hprep
    have hout : (tryBody env req w).2 =
        Except.error "Missing fly.toml" := by
      simp only [tryBody, dmBind_snd, stGetExe, stCreds, stPrep,
        stWriteConfig, hexe, hcred, hprep, hpref, hex, if_true]
    have hemits : (tryBody env req w).1 =
        [.ev (mkEv env "🕵️ Verifying credentials..." .info),
         .act .credCheck, .ev (mkEv env "Writing config..." .info)] := by
      simp only [tryBody, dmBind_fst, dmBind_snd, stGetExe, stCreds,
        stPrep, stWriteConfig, hexe, hcred, hprep, hpref, hex, if_true,
        List.append_nil, List.nil_append]
      rfl
    refine ⟨hout, ?_, ?_⟩
    · rw [hemits]; rfl
    · unfold deployApp
      rw [hurl, hname]
      simp only [Bool.not_true, Bool.false_eq_true, if_false, hout]
      exact getLast?_app _ _
  · intro reads prefer
    unfold aiShortCircuits
    cases prefer <;> simp

/-- Witness for `missing_toml_aborts_and_ai_shortcircuit_iff`: a concrete
prefer-existing run with no `fly.toml` present. -/
theorem missing_toml_aborts_and_ai_shortcircuit_iff_witness :
    (tryBody ⟨none, none⟩ { okReq with preferExistingConfig := true }
        okWorld).2 = Except.error "Missing fly.toml" ∧
    actsOf (tryBody ⟨none, none⟩
        { okReq with preferExistingConfig := true } okWorld).1 =
      [Action.credCheck] ∧
    (deployApp ⟨none, none⟩ { okReq with preferExistingConfig := true }
        okWorld "/tmp/fly_deployer_workspaces").events.getLast? =
      some (mkEv ⟨none, none⟩
        ("Error: " ++ sanitizeLog ⟨none, none⟩ "Missing fly.toml")
        EType.error) :=
  missing_toml_aborts_and_ai_shortcircuit_iff.1 ⟨none, none⟩
    { okReq with preferExistingConfig := true } okWorld
    "/tmp/fly_deployer_workspaces" "/home/fly/.fly/bin/flyctl"
    (by decide) (by decide) rfl rfl rfl rfl rfl

theorem nonTerminal_ev (env : ProcEnv) (msg : String) (ty : EType)
    (hty : ty ≠ EType.error) : nonTerminalEmit (.ev (mkEv env msg ty)) := by
  simp [nonTerminalEmit, mkEv, hty]

theorem nonTerminal_act (a : Action) : nonTerminalEmit (.act a) := trivial

theorem dmBind_inv {α β : Type} {P : Emit → Prop} {x : DM α} {f : α → DM β}
    (hx : ∀ e ∈ x.1, P e) (hf : ∀ a, ∀ e ∈ (f a).1, P e) :
    ∀ e ∈ (dmBind x f).1, P e := by
  intro e he
  rw [dmBind_fst] at he
  rcases List.mem_append.mp he with h | h
  · exact hx e h
  · rcases hmatch : x.2 with m | a
    · rw [hmatch] at h; simp at h
    · rw [hmatch] at h; exact hf a e h

theorem stGetExe_inv (w : DeployWorld) :
    ∀ x ∈ (stGetExe w).1, nonTerminalEmit x := by
  intro x hx; simp [stGetExe] at hx

theorem stCreds_inv (env : ProcEnv) (w : DeployWorld) :
    ∀ x ∈ (stCreds env w).1, nonTerminalEmit x := by
  intro x hx
  rcases List.mem_cons.mp hx with rfl | hx2
  · exact nonTerminal_ev _ _ _ (by simp)
  · rcases List.mem_singleton.mp hx2 with rfl
    exact nonTerminal_act _

theorem stPrep_inv (env : ProcEnv) (w : DeployWorld) :
    ∀ x ∈ (stPrep env w).1, nonTerminalEmit x := by
  intro x hx
  unfold stPrep at hx
  by_cases hp : w.prepReused
  · simp [hp] at hx
  · simp only [hp, Bool.false_eq_true, if_false, List.mem_singleton] at hx
    subst hx
    exact nonTerminal_ev _ _ _ (by simp)

theorem stWriteConfig_inv (env : ProcEnv) (req : DeployRequest)
    (w : DeployWorld) : ∀ x ∈ (stWriteConfig env req w).1,
      nonTerminalEmit x := by
  intro x hx
  unfold stWriteConfig at hx
  by_cases hp : req.preferExistingConfig
  · simp only [hp, if_true] at hx
    cases het : w.existingToml with
    | some c =>
      rw [het] at hx
      rcases List.mem_cons.mp hx with rfl | hx2
      · exact nonTerminal_ev _ _ _ (by simp)
      · rcases List.mem_singleton.mp hx2 with rfl
        exact nonTerminal_act _
    | none =>
      rw [het] at hx
      rcases List.mem_singleton.mp hx with rfl
      exact nonTerminal_ev _ _ _ (by simp)
  · simp only [hp, Bool.false_eq_true, if_false] at hx
    rcases List.mem_cons.mp hx with rfl | hx2
    · exact nonTerminal_ev _ _ _ (by simp)
    · rcases List.mem_singleton.mp hx2 with rfl
      exact nonTerminal_act _

theorem stDockerfile_inv (req : DeployRequest) :
    ∀ x ∈ (stDockerfile req).1, nonTerminalEmit x := by
  intro x hx
  unfold stDockerfile at hx
  cases hd : req.dockerfile with
  | none => rw [hd] at hx; simp at hx
  | some d =>
    rw [hd] at hx
    by_cases he : (strTrim d).data.isEmpty
    · simp [he] at hx
    · simp only [he, Bool.false_eq_true, if_false,
        List.mem_singleton] at hx
      subst hx
      exact nonTerminal_act _

theorem stFiles_inv (env : ProcEnv) (req : DeployRequest) :
    ∀ x ∈ (stFiles env req).1, nonTerminalEmit x := by
  intro x hx
  unfold stFiles at hx
  rcases List.mem_flatten.mp hx with ⟨l, hl, hxl⟩
  rcases List.mem_map.mp hl with ⟨f, _, rfl⟩
  rcases List.mem_cons.mp hxl with rfl | hxl2
  · exact nonTerminal_act _
  · rcases List.mem_singleton.mp hxl2 with rfl
    exact nonTerminal_ev _ _ _ (by simp)

theorem stDockerignore_inv (env : ProcEnv) :
    ∀ x ∈ (stDockerignore env).1, nonTerminalEmit x := by
  intro x hx
  rcases List.mem_cons.mp hx with rfl | hx2
  · exact nonTerminal_ev _ _ _ (by simp)
  · rcases List.mem_singleton.mp hx2 with rfl
    exact nonTerminal_act _

theorem policyEvents_inv (env : ProcEnv) (w : DeployWorld) :
    ∀ x ∈ policyEvents env w, nonTerminalEmit x := by
  intro x hx
  unfold policyEvents at hx
  rcases List.mem_append.mp hx with h | h
  · rcases List.mem_map.mp h with ⟨q, _, rfl⟩
    exact nonTerminal_ev _ _ _ (by simp)
  · by_cases hc : w.policyDockerCopiesConfig && !w.policyConfigExists
    · simp only [hc, if_true, List.mem_singleton] at h
      subst h
      exact nonTerminal_ev _ _ _ (by simp)
    · simp [hc] at h

theorem stPolicy_inv (env : ProcEnv) (w : DeployWorld) :
    ∀ x ∈ (stPolicy env w).1, nonTerminalEmit x := by
  intro x hx
  unfold stPolicy at hx
  cases hp : w.policyErr with
  | some p =>
    rw [hp] at hx
    exact policyEvents_inv env w x (List.take_subset _ _ hx)
  | none =>
    rw [hp] at hx
    exact policyEvents_inv env w x hx

theorem stRegister_inv (env : ProcEnv) (w : DeployWorld) :
    ∀ x ∈ (stRegister env w).1, nonTerminalEmit x := by
  intro x hx
  unfold stRegister at hx
  rcases List.mem_append.mp hx with h | h
  · rcases List.mem_append.mp h with h2 | h2
    · rcases List.mem_cons.mp h2 with rfl | h3
      · exact nonTerminal_ev _ _ _ (by simp)
      · rcases List.mem_singleton.mp h3 with rfl
        exact nonTerminal_act _
    · rcases List.mem_map.mp h2 with ⟨c, _, rfl⟩
      exact nonTerminal_ev _ _ _ (by simp)
  · cases hr : w.reg with
    | ok u => rw [hr] at h; simp at h
    | error me =>
      rw [hr] at h
      by_cases hc : containsTakenOrExists me
      · simp only [hc, if_true, List.mem_singleton] at h
        subst h
        exact nonTerminal_ev _ _ _ (by simp)
      · simp [hc] at h

theorem stVolumes_inv (env : ProcEnv) (req : DeployRequest)
    (w : DeployWorld) : ∀ x ∈ (stVolumes env req w).1, nonTerminalEmit x := by
  intro x hx
  unfold stVolumes at hx
  cases hv : w.volName with
  | none => rw [hv] at hx; simp at hx
  | some v =>
    rw [hv] at hx
    rcases List.mem_append.mp hx with h | h
    · rcases List.mem_cons.mp h with rfl | h2
      · exact nonTerminal_ev _ _ _ (by simp)
      · rcases List.mem_singleton.mp h2 with rfl
        exact nonTerminal_act _
    · by_cases he : w.volExists
      · simp only [he, if_true, List.mem_singleton] at h
        subst h
        exact nonTerminal_ev _ _ _ (by simp)
      · simp only [he, Bool.false_eq_true, if_false] at h
        rcases List.mem_append.mp h with h2 | h2
        · rcases List.mem_cons.mp h2 with rfl | h3
          · exact nonTerminal_ev _ _ _ (by simp)
          · rcases List.mem_singleton.mp h3 with rfl
            exact nonTerminal_act _
        · cases hvc : w.volCreate with
          | ok u =>
            rw [hvc] at h2
            rcases List.mem_singleton.mp h2 with rfl
            exact nonTerminal_ev _ _ _ (by simp)
          | error e2 =>
            rw [hvc] at h2
            rcases List.mem_singleton.mp h2 with rfl
            exact nonTerminal_ev _ _ _ (by simp)

theorem stSecrets_inv (env : ProcEnv) (req : DeployRequest)
    (w : DeployWorld) : ∀ x ∈ (stSecrets env req w).1, nonTerminalEmit x := by
  intro x hx
  unfold stSecrets at hx
  by_cases hs : req.secrets.isEmpty
  · simp [hs] at hx
  · simp only [hs, Bool.false_eq_true, if_false] at hx
    rcases List.mem_append.mp hx with h | h
    · rcases List.mem_singleton.mp h with rfl
      exact nonTerminal_ev _ _ _ (by simp)
    · by_cases ha : (req.secrets.filter
        (fun kv => !kv.1.data.isEmpty && !kv.2.data.isEmpty)).isEmpty
      · simp [ha] at h
      · simp only [ha, Bool.false_eq_true, if_false] at h
        rcases List.mem_cons.mp h with rfl | h2
        · exact nonTerminal_act _
        · cases hss : w.secretsSet with
          | ok u =>
            rw [hss] at h2
            rcases List.mem_singleton.mp h2 with rfl
            exact nonTerminal_ev _ _ _ (by simp)
          | error e2 =>
            rw [hss] at h2
            rcases List.mem_singleton.mp h2 with rfl
            exact nonTerminal_ev _ _ _ (by simp)

theorem stDeploy_inv (env : ProcEnv) (w : DeployWorld) :
    ∀ x ∈ (stDeploy env w).1, nonTerminalEmit x := by
  intro x hx
  unfold stDeploy at hx
  rcases List.mem_append.mp hx with h | h
  · rcases List.mem_cons.mp h with rfl | h2
    · exact nonTerminal_ev _ _ _ (by simp)
    · rcases List.mem_singleton.mp h2 with rfl
      exact nonTerminal_act _
  · rcases List.mem_map.mp h with ⟨l, _, rfl⟩
    exact nonTerminal_ev _ _ _ (by simp)

theorem stStatus_inv (w : DeployWorld) :
    ∀ x ∈ (stStatus w).1, nonTerminalEmit x := by
  intro x hx
  rcases List.mem_singleton.mp hx with rfl
  exact nonTerminal_act _

theorem stHealth_inv (env : ProcEnv) (req : DeployRequest) (w : DeployWorld)
    (hostname : Option String) :
    ∀ x ∈ (stHealth env req w hostname).1, nonTerminalEmit x := by
  intro x hx
  unfold stHealth at hx
  cases hh : hostname with
  | none => rw [hh] at hx; simp at hx
  | some hn =>
    rw [hh] at hx
    simp only at hx
    rcases List.mem_append.mp hx with h | h
    · rcases List.mem_append.mp h with h2 | h2
      · rcases List.mem_singleton.mp h2 with rfl
        exact nonTerminal_ev _ _ _ (by simp)
      · rcases healthAttempts_types env w.health 5 0 x h2
          with ⟨msg, ty, rfl, hty⟩
        rcases hty with rfl | rfl <;> exact nonTerminal_ev _ _ _ (by simp)
    · by_cases hb : (healthAttempts env w.health 0 5).2
      · simp [hb] at h
      · simp only [hb, Bool.false_eq_true, if_false,
          List.mem_singleton] at h
        subst h
        exact nonTerminal_ev _ _ _ (by simp)

theorem tryBody_inv (env : ProcEnv) (req : DeployRequest) (w : DeployWorld) :
    ∀ x ∈ (tryBody env req w).1, nonTerminalEmit x := by
  unfold tryBody
  refine dmBind_inv (stGetExe_inv w) (fun _ => ?_)
  refine dmBind_inv (stCreds_inv env w) (fun _ => ?_)
  refine dmBind_inv (stPrep_inv env w) (fun _ => ?_)
  refine dmBind_inv (stWriteConfig_inv env req w) (fun _ => ?_)
  refine dmBind_inv (stDockerfile_inv req) (fun _ => ?_)
  refine dmBind_inv (stFiles_inv env req) (fun _ => ?_)
  refine dmBind_inv (stDockerignore_inv env) (fun _ => ?_)
  refine dmBind_inv (stPolicy_inv env w) (fun _ => ?_)
  refine dmBind_inv (stRegister_inv env w) (fun _ => ?_)
  refine dmBind_inv (stVolumes_inv env req w) (fun _ => ?_)
  refine dmBind_inv (stSecrets_inv env req w) (fun _ => ?_)
  refine dmBind_inv (stDeploy_inv env w) (fun _ => ?_)
  refine dmBind_inv (stStatus_inv w) (fun st => ?_)
  refine dmBind_inv (stHealth_inv env req w st.1) (fun _ => ?_)
  intro x hx
  simp [dmRet] at hx

theorem mem_evsOf {e : Event} {l : List Emit} (h : e ∈ evsOf l) :
    Emit.ev e ∈ l := by
  unfold evsOf at h
  rcases List.mem_filterMap.mp h with ⟨x, hx, hfx⟩
  cases x with
  | ev e2 => simp at hfx; rw [hfx] at hx; exact hx
  | act a => simp at hfx

theorem isStreamTerminal_false_of_nonTerminal {e : Event}
    (h : nonTerminalEmit (.ev e)) : isStreamTerminal e = false := by
  rcases h with ⟨h1, h2⟩
  simp [isStreamTerminal, h1, h2]

theorem dmBind_snd2 {α β : Type} (x : DM α) (f : α → DM β) :
    (dmBind x f).2 = Except.bind x.2 (fun a => (f a).2) := by
  rcases x with ⟨l, exc⟩
  cases exc <;> rfl

theorem except_bind_ok {ε α β : Type} {x : Except ε α}
    {g : α → Except ε β} {st : β}
    (h : Except.bind x g = Except.ok st) :
    ∃ a, x = Except.ok a ∧ g a = Except.ok st := by
  cases x with
  | error e => simp [Except.bind] at h
  | ok a => exact ⟨a, rfl, h⟩

theorem tryBody_ok_status {env : ProcEnv} {req : DeployRequest}
    {w : DeployWorld} {st : Option String × String}
    (h : (tryBody env req w).2 = .ok st) : w.statusRes = Except.ok st := by
  simp only [tryBody, dmBind_snd2, dmRet] at h
  obtain ⟨a1, e1, h⟩ := except_bind_ok h
  obtain ⟨a2, e2, h⟩ := except_bind_ok h
  obtain ⟨a3, e3, h⟩ := except_bind_ok h
  obtain ⟨a4, e4, h⟩ := except_bind_ok h
  obtain ⟨a5, e5, h⟩ := except_bind_ok h
  obtain ⟨a6, e6, h⟩ := except_bind_ok h
  obtain ⟨a7, e7, h⟩ := except_bind_ok h
  obtain ⟨a8, e8, h⟩ := except_bind_ok h
  obtain ⟨a9, e9, h⟩ := except_bind_ok h
  obtain ⟨a10, e10, h⟩ := except_bind_ok h
  obtain ⟨a11, e11, h⟩ := except_bind_ok h
  obtain ⟨a12, e12, h⟩ := except_bind_ok h
  obtain ⟨a13, e13, h⟩ := except_bind_ok h
  obtain ⟨a14, e14, h⟩ := except_bind_ok h
  -- e13 : (stStatus w).2 = ok a13
  simp only [stStatus] at e13
  cases hs : w.statusRes with
  | ok p =>
    rw [hs] at e13
    simp only [Except.ok.injEq] at e13 h
    rw [e13, h]
  | error e =>
    rw [hs] at e13
    simp at e13

/-- **C1 (counterexample).** Read as the claim words it — "exactly one
terminal event (success or error)", i.e. exactly one event of the success
or error category — the claim is false: a healthy all-success run emits
*two* success-category events (`✅ Health check passed (200)` from the
probe loop, then the final success write), and the first of them is not
the stream's last event, so a client that terminates on the first
`success`-typed event stops before the URL-carrying write. -/
theorem success_category_event_not_unique :
    ((deployApp ⟨none, none⟩ okReq okWorld
        "/tmp/fly_deployer_workspaces").events.filter
      isSuccessOrErrorEvent).length = 2 ∧
    ∃ e ∈ (deployApp ⟨none, none⟩ okReq okWorld
        "/tmp/fly_deployer_workspaces").events.dropLast,
      isSuccessOrErrorEvent e = true := by
  decide

/-- **C1 (amended).** With "terminal event" in the glossary's sense — the
single event that signals definitive success or failure and ends the
stream: an error-category event, or the URL-carrying success write (both
recognised by `isStreamTerminal`) — the claim holds: every deploy run,
boundary-validation failures included, produces an event stream whose
*last* event is the unique terminal event, no event of any category
follows it, every earlier event is non-terminal (mid-stream events may be
success-*category*, but never carry a URL and are never error-typed), and
a success terminal always carries the public application URL computed
from the status command's hostname. -/
theorem exactly_one_terminal_event (env : ProcEnv) (req : DeployRequest)
    (w : DeployWorld) (tempDir : String) :
    ∃ t, (deployApp env req w tempDir).events.getLast? = some t ∧
      isStreamTerminal t = true ∧
      (∀ e ∈ (deployApp env req w tempDir).events.dropLast,
        isStreamTerminal e = false) ∧
      (t.etype = EType.success →
        ∃ st, w.statusRes = Except.ok st ∧ t = successEvent st.1 st.2 ∧
          t.appUrl = some ("https://" ++ st.1.getD "undefined")) := by
  unfold deployApp
  by_cases hu : validRepoUrl req.repoUrl
  · by_cases ha : validAppName req.appName
    · simp only [hu, ha, Bool.not_true, Bool.false_eq_true, if_false]
      cases hout : (tryBody env req w).2 with
      | ok st =>
        refine ⟨successEvent st.1 st.2, ?_, by simp [successEvent,
          isStreamTerminal], ?_, ?_⟩
        · simp only [hout]
          exact getLast?_app _ _
        · simp only [hout, dropLast_app]
          intro e he
          exact isStreamTerminal_false_of_nonTerminal
            (tryBody_inv env req w _ (mem_evsOf he))
        · intro _
          exact ⟨st, tryBody_ok_status hout, rfl, rfl⟩
      | error m =>
        refine ⟨mkEv env ("Error: " ++ sanitizeLog env m) EType.error,
          ?_, by simp [isStreamTerminal, mkEv], ?_, ?_⟩
        · simp only [hout]
          exact getLast?_app _ _
        · simp only [hout, dropLast_app]
          intro e he
          exact isStreamTerminal_false_of_nonTerminal
            (tryBody_inv env req w _ (mem_evsOf he))
        · intro hsucc
          exact absurd hsucc (by simp [mkEv])
    · simp only [hu, ha, Bool.not_true, Bool.not_false, Bool.false_eq_true,
        if_false, if_true]
      refine ⟨⟨"Invalid App Name", EType.error, none, none⟩, rfl,
        by simp [isStreamTerminal], by simp, ?_⟩
      intro hsucc
      exact absurd hsucc (by simp)
  · simp only [hu, Bool.not_false, if_true]
    refine ⟨⟨"Invalid Repo URL", EType.error, none, none⟩, rfl,
      by simp [isStreamTerminal], by simp, ?_⟩
    intro hsucc
    exact absurd hsucc (by simp)

/-- Witness for `exactly_one_terminal_event` at a concrete successful
run. -/
theorem exactly_one_terminal_event_witness :
    ∃ t, (deployApp ⟨none, none⟩ okReq okWorld
        "/tmp/fly_deployer_workspaces").events.getLast? = some t ∧
      isStreamTerminal t = true ∧
      (∀ e ∈ (deployApp ⟨none, none⟩ okReq okWorld
          "/tmp/fly_deployer_workspaces").events.dropLast,
        isStreamTerminal e = false) ∧
      (t.etype = EType.success →
        ∃ st, okWorld.statusRes = Except.ok st ∧
          t = successEvent st.1 st.2 ∧
          t.appUrl = some ("https://" ++ st.1.getD "undefined")) :=
  exactly_one_terminal_event ⟨none, none⟩ okReq okWorld
    "/tmp/fly_deployer_workspaces"

end FlyDeploy
